import Mathlib

/-!
Verification of the Huffman compression program (primary implementation
`untitled.py`; `untitled2.py` / `untitled3.py` are variant drafts of the same
logic).  The Python code is shallowly embedded below:

* A Python variable holding either `None` or a `HuffmanNode` is modelled by
  the inductive type `HTree`, whose constructor `HTree.nil` models `None` and
  `HTree.node symbol number left right` models `HuffmanNode`.  The `symbol`
  and `number` attributes (which may be Python `None`) are `Option Nat`.
* Python `bytes` are lists of `Nat`; the byte strings `"0"`/`"1"` used for
  codes are lists of `Char`.
* Python dictionaries are association lists in insertion order.
* Fallible code (attribute access on `None`, out-of-range indexing,
  `int.to_bytes` overflow, `ZeroDivisionError`) returns `Option`.
* `nodes.py` is not part of the sources; the tie-break used by Python's
  `sorted` on `(weight, HuffmanNode)` tuples is therefore modelled from the
  spec as a stable sort on the weight alone (spec section 4.3: ordering "as
  produced by a stable sort", the choice among ties being unspecified).
-/

/-- Model of a Python `Optional[HuffmanNode]` value: `nil` is Python `None`,
`node symbol number left right` is a `HuffmanNode` with its four attributes
(`symbol` and `number` may themselves be Python `None`). -/
inductive HTree : Type where
  | nil : HTree
  | node (symbol : Option Nat) (number : Option Nat) (left right : HTree) : HTree
deriving DecidableEq, Repr

/-- Model of the `ReadNode` record class from `nodes.py`: four integer
fields `(l_type, l_data, r_type, r_data)`. -/
structure ReadNode where
  l_type : Nat
  l_data : Nat
  r_type : Nat
  r_data : Nat
deriving DecidableEq, Repr

namespace HTree

/-- Attribute access `t.symbol`; `none` on `HTree.nil` is unreachable where
used (Python would raise `AttributeError`, modelled at each use site). -/
def symbol : HTree → Option Nat
  | nil => none
  | node s _ _ _ => s

/-- Attribute access `t.number`. -/
def number : HTree → Option Nat
  | nil => none
  | node _ n _ _ => n

/-- Attribute access `t.left`. -/
def left : HTree → HTree
  | nil => nil
  | node _ _ l _ => l

/-- Attribute access `t.right`. -/
def right : HTree → HTree
  | nil => nil
  | node _ _ _ r => r

/-- Number of `HuffmanNode` objects in a tree. -/
def size : HTree → Nat
  | nil => 0
  | node _ _ l r => 1 + size l + size r

/-- Number of internal nodes (nodes whose `symbol` attribute is `None`),
the nodes that `number_nodes` numbers and `tree_to_bytes` serializes. -/
def internalCount : HTree → Nat
  | nil => 0
  | node s _ l r => internalCount l + internalCount r + (if s = none then 1 else 0)

/-- Number of leaves: nodes carrying a symbol. -/
def leafCount : HTree → Nat
  | nil => 0
  | node s _ l r => (if s = none then leafCount l + leafCount r else 1)

/-- The spec's notion of a *strict* tree (section 3 data model): a leaf
carries a symbol and has no children; an internal node carries no symbol and
has two non-null strict children.  Python `None` is not a strict tree. -/
def strictB : HTree → Bool
  | nil => false
  | node (some _) _ l r => (l = nil && r = nil : Bool)
  | node none _ l r => strictB l && strictB r

/-- Whether the value is a `HuffmanNode` with `symbol` equal to `None`,
i.e. an internal node. -/
def isInternalB : HTree → Bool
  | node none _ _ _ => true
  | _ => false

/-- Whether the value is a `HuffmanNode` carrying a symbol, i.e. a leaf. -/
def isLeafNodeB : HTree → Bool
  | node (some _) _ _ _ => true
  | _ => false

/-- Erase all `number` attributes; used to compare trees structurally the way
`HuffmanNode.__eq__` does (symbol and children only). -/
def stripNum : HTree → HTree
  | nil => nil
  | node s _ l r => node s none (stripNum l) (stripNum r)

end HTree

/-! ## Bit codec (`get_bit`, `byte_to_bits`, `bits_to_byte`) -/

/-- `get_bit(byte, bit_num)`: bit `bit_num` from the right. -/
def getBit (byte bitNum : Nat) : Nat :=
  byte / 2 ^ bitNum % 2

/-- `byte_to_bits(byte)`: the eight bits of a byte, most significant first,
as characters (Python builds `str(get_bit(byte, k))` for `k = 7 .. 0`;
`get_bit` only returns `0` or `1`). -/
def byteToBits (byte : Nat) : List Char :=
  [7, 6, 5, 4, 3, 2, 1, 0].map (fun k => if getBit byte k = 1 then '1' else '0')

/-- `int(c)` on a digit character, as used by `bits_to_byte`. -/
def charDigit (c : Char) : Nat :=
  c.toNat - 48

/-- `bits_to_byte(bits)`: value of up to eight bit characters, most
significant first, padded on the right with zeros. -/
def bitsToByte (bits : List Char) : Nat :=
  ((List.range bits.length).map
    (fun pos => charDigit (bits.getD pos '0') * 2 ^ (7 - pos))).sum

/-! ## Frequency analyzer (`make_freq_dict`) -/

/-- One step of `make_freq_dict`: Python `if b in res: res[b] += 1 else:
res[b] = 1` on an insertion-ordered dictionary. -/
def addCount : List (Nat × Nat) → Nat → List (Nat × Nat)
  | [], b => [(b, 1)]
  | (k, v) :: rest, b =>
      if k = b then (k, v + 1) :: rest else (k, v) :: addCount rest b

/-- `make_freq_dict(text)`: frequency dictionary of a byte sequence, in
insertion order. -/
def makeFreqDict (text : List Nat) : List (Nat × Nat) :=
  text.foldl addCount []

/-! ## Dictionaries (insertion-ordered association lists) -/

/-- Python dictionary assignment `d[k] = v`: update in place if present,
else append. -/
def dictInsert : List (Nat × α) → Nat → α → List (Nat × α)
  | [], k, v => [(k, v)]
  | (k', v') :: rest, k, v =>
      if k' = k then (k, v) :: rest else (k', v') :: dictInsert rest k v

/-- Python dictionary lookup `d[k]`, `none` meaning `KeyError`. -/
def dictLookup : List (Nat × α) → Nat → Option α
  | [], _ => none
  | (k', v') :: rest, k => if k' = k then some v' else dictLookup rest k

/-! ## Tree builder (`huffman_tree`) -/

/-- The `sorted` call of `huffman_tree` on `(weight, node)` pairs, modelled
from the spec as a stable sort on the weight (`nodes.py`, which would decide
ties, is not among the sources; spec section 4.3 leaves ties unspecified). -/
def sortByWeight (q : List (Nat × HTree)) : List (Nat × HTree) :=
  q.insertionSort (fun a b => a.1 ≤ b.1)

/-- The `while len(q) > 1` merge loop of `huffman_tree`: pop the two
lightest entries, merge them under a fresh internal node, reinsert, re-sort.
`none` models the `IndexError` of `q[0][1]` on an empty queue.  The loop
shortens the queue by one per iteration, so structural recursion on a fuel
initialized to the queue length (see `mergeLoop`) performs exactly the
Python iterations; the fuel-exhaustion branch is unreachable. -/
def mergeLoopGo : Nat → List (Nat × HTree) → Option HTree
  | _, [] => none
  | _, [x] => some x.2
  | fuel + 1, a :: b :: rest =>
      mergeLoopGo fuel (sortByWeight (rest ++ [(a.1 + b.1, HTree.node none none a.2 b.2)]))
  | 0, _ :: _ :: _ => none

/-- The merge loop entered with the sorted queue. -/
def mergeLoop (q : List (Nat × HTree)) : Option HTree :=
  mergeLoopGo q.length q

/-- `huffman_tree(freq_dict)` of `untitled.py`: build one leaf per entry,
sort by weight, special-case a single entry as an internal root with one
leaf child and a `None` right child, otherwise run the merge loop. -/
def huffmanTree (freq : List (Nat × Nat)) : Option HTree :=
  let q := sortByWeight (freq.map fun kv => (kv.2, HTree.node (some kv.1) none .nil .nil))
  if q.length = 1 then
    match q with
    | x :: _ => some (.node none none (.node x.2.symbol none .nil .nil) .nil)
    | [] => none
  else
    mergeLoop q

/-! ## Code table deriver (`get_codes`) -/

/-- `get_codes_rec(tree, code, d)` with the dictionary threaded through:
assign the accumulated code at a symbol-carrying node, otherwise recurse
left with `code + "0"` then right with `code + "1"`. -/
def getCodesRec : HTree → List Char → List (Nat × List Char) → List (Nat × List Char)
  | .nil, _, d => d
  | .node (some s) _ _ _, code, d => dictInsert d s code
  | .node none _ l r, code, d =>
      getCodesRec r (code ++ ['1']) (getCodesRec l (code ++ ['0']) d)

/-- `get_codes(tree)`. -/
def getCodes (tree : HTree) : List (Nat × List Char) :=
  getCodesRec tree [] []

/-! ## Tree numberer (`number_nodes`) -/

/-- `number_nodes_rec(tree, num)` with the mutation made explicit: returns
the renumbered tree together with the next number. -/
def numberNodesRec : HTree → Nat → HTree × Nat
  | .nil, num => (.nil, num)
  | .node s n l r, num =>
      let p₁ := numberNodesRec l num
      let p₂ := numberNodesRec r p₁.2
      if s = none then (.node s (some p₂.2) p₁.1 p₂.1, p₂.2 + 1)
      else (.node s n p₁.1 p₂.1, p₂.2)

/-- `number_nodes(tree)`: postorder numbering of internal nodes from 0. -/
def numberNodes (tree : HTree) : HTree :=
  (numberNodesRec tree 0).1

/-! ## `avg_length` -/

/-- The `for k in freq_dict` loop of `avg_length`, accumulating
`avg += len(codes[k]) * freq_dict[k]` and `total_freq += freq_dict[k]`;
`none` models the `KeyError` on a symbol without a code. -/
def avgLoop (codes : List (Nat × List Char)) :
    List (Nat × Nat) → Nat → Nat → Option (Nat × Nat)
  | [], avg, tot => some (avg, tot)
  | (k, f) :: rest, avg, tot =>
      match dictLookup codes k with
      | none => none
      | some c => avgLoop codes rest (avg + c.length * f) (tot + f)

/-- `avg_length(tree, freq_dict)`: weighted average code length.  The final
`avg / total_freq` is exact rational division; `none` on an empty total
models Python's `ZeroDivisionError`. -/
def avgLength (tree : HTree) (freq : List (Nat × Nat)) : Option ℚ :=
  match avgLoop (getCodes tree) freq 0 0 with
  | none => none
  | some (avg, tot) => if tot = 0 then none else some ((avg : ℚ) / (tot : ℚ))

/-! ## `generate_compressed` and the archive header -/

/-- The code concatenation loop of `generate_compressed`: `bstring` after
`for byte in text: bstring += codes[byte]`; `none` on a missing code. -/
def concatCodes (codes : List (Nat × List Char)) : List Nat → Option (List Char)
  | [] => some []
  | b :: rest =>
      match dictLookup codes b with
      | none => none
      | some c => (concatCodes codes rest).map (fun s => c ++ s)

/-- The `while len(bstring) % 8 != 0: bstring += "0"` padding loop. -/
def padToByte (bits : List Char) : List Char :=
  bits ++ List.replicate ((8 - bits.length % 8) % 8) '0'

/-- The chunking loop `for i in range(0, len(bstring), 8)` applied to a
bit string whose length is a multiple of eight. -/
def chunkBytes : List Char → List Nat
  | b0 :: b1 :: b2 :: b3 :: b4 :: b5 :: b6 :: b7 :: rest =>
      bitsToByte [b0, b1, b2, b3, b4, b5, b6, b7] :: chunkBytes rest
  | _ => []

/-- `generate_compressed(text, codes)`. -/
def generateCompressed (text : List Nat) (codes : List (Nat × List Char)) :
    Option (List Nat) :=
  (concatCodes codes text).map (fun bs => chunkBytes (padToByte bs))

/-- `num_nodes_to_bytes(tree)`: the single header byte `tree.number + 1`;
`none` models the `TypeError` on an unnumbered root. -/
def numNodesToBytes (tree : HTree) : Option (List Nat) :=
  match tree with
  | .node _ (some num) _ _ => some [num + 1]
  | _ => none

/-- `size_to_bytes(size)`: `size.to_bytes(4, "little")`; `none` models the
`OverflowError` for sizes not fitting in four bytes. -/
def sizeToBytes (size : Nat) : Option (List Nat) :=
  if size < 2 ^ 32 then
    some [size % 256, size / 256 % 256, size / 256 ^ 2 % 256, size / 256 ^ 3 % 256]
  else none

/-! ## Tree serializer (`tree_to_bytes`) -/

/-- The record pair emitted for one child of an internal node: `(0, symbol)`
for a leaf child, `(1, child.number)` for an internal child.  `none` models
the `AttributeError` on a `None` child and the failure on an unnumbered
internal child. -/
def childBytes : HTree → Option (List Nat)
  | .nil => none
  | .node (some s) _ _ _ => some [0, s]
  | .node none num _ _ => num.map (fun n => [1, n])

/-- `tree_to_bytes_rec(tree, res)` with the result list made explicit:
postorder emission of the two child record pairs of every internal node. -/
def treeToBytesRec : HTree → Option (List Nat)
  | .nil => some []
  | .node (some _) _ _ _ => some []
  | .node none _ l r => do
      let a ← treeToBytesRec l
      let b ← treeToBytesRec r
      let cl ← childBytes l
      let cr ← childBytes r
      pure (a ++ b ++ cl ++ cr)

/-- `tree_to_bytes(tree)`. -/
def treeToBytes (tree : HTree) : Option (List Nat) :=
  treeToBytesRec tree

/-! ## Compression pipeline (`compress`), on in-memory bytes -/

/-- The pure transformation performed by `compress` between reading the
input file and writing the archive: frequency table, tree, codes, numbering,
`avg_length` report, then header + records + size + payload. -/
def compressBytes (text : List Nat) : Option (List Nat) := do
  let freq := makeFreqDict text
  let tree ← huffmanTree freq
  let codes := getCodes tree
  let tn := numberNodes tree
  let _ ← avgLength tn freq
  let nb ← numNodesToBytes tn
  let tb ← treeToBytes tn
  let sb ← sizeToBytes text.length
  let payload ← generateCompressed text codes
  pure (nb ++ tb ++ sb ++ payload)

/-! ## Tree deserializers -/

/-- `bytes_to_nodes(buf)`: group the buffer into 4-byte `ReadNode` records;
`none` models the `IndexError` on a trailing partial record. -/
def bytesToNodes : List Nat → Option (List ReadNode)
  | [] => some []
  | a :: b :: c :: d :: rest =>
      (bytesToNodes rest).map (fun l => ⟨a, b, c, d⟩ :: l)
  | _ => none

/-- `generate_tree_general(node_lst, root_index)`: resolve kind-1 fields as
absolute indices into the record list.  The recursion is bounded by `fuel`;
`none` models both `IndexError` on a bad index and the non-termination /
`RecursionError` a cyclic record list would cause in Python. -/
def genTreeGeneral (lst : List ReadNode) : Nat → Nat → Option HTree
  | _, 0 => none
  | i, fuel + 1 =>
      match lst.get? i with
      | none => none
      | some rn => do
          let l ← if rn.l_type = 1 then genTreeGeneral lst rn.l_data fuel
                  else some (.node (some rn.l_data) none .nil .nil)
          let r ← if rn.r_type = 1 then genTreeGeneral lst rn.r_data fuel
                  else some (.node (some rn.r_data) none .nil .nil)
          pure (.node none none l r)

/-- `generate_tree_postorder_rec(node_lst, root_index)`: consume records
backwards from `root_index`, right subtree before left, returning the next
unconsumed index together with the subtree.  Fuel as in `genTreeGeneral`. -/
def genTreePostRec (lst : List ReadNode) : Nat → Nat → Option (Nat × HTree)
  | _, 0 => none
  | i, fuel + 1 =>
      match lst.get? i with
      | none => none
      | some rn => do
          let (ind₁, r) ←
            if rn.r_type = 1 then genTreePostRec lst (i - 1) fuel
            else some (i, HTree.node (some rn.r_data) none .nil .nil)
          let (ind₂, l) ←
            if rn.l_type = 1 then genTreePostRec lst (ind₁ - 1) fuel
            else some (ind₁, HTree.node (some rn.l_data) none .nil .nil)
          pure (ind₂, HTree.node none none l r)

/-- `generate_tree_postorder(node_lst, root_index)`. -/
def genTreePostorder (lst : List ReadNode) (rootIndex fuel : Nat) : Option HTree :=
  (genTreePostRec lst rootIndex fuel).map Prod.snd

/-- `bytes_to_size(buf)`: `int.from_bytes(buf, "little")`. -/
def bytesToSize (buf : List Nat) : Nat :=
  buf.foldr (fun b acc => b + 256 * acc) 0

/-! ## Decompression (`generate_uncompressed`, `uncompress`) -/

/-- The bit-consuming loop of `generate_uncompressed`: walk from the root,
left on `'0'`, right on `'1'`, emit a symbol and restart at the root on
reaching a symbol-carrying node, stop after `size` symbols.  `none` models
the `AttributeError` of `cur.symbol` after stepping onto `None`. -/
def guLoop (tree : HTree) : List Char → HTree → List Nat → Nat → Nat → Option (List Nat)
  | [], _, out, _, _ => some out
  | bit :: rest, cur, out, decoded, size =>
      if decoded = size then some out
      else
        match (if bit = '0' then cur.left else cur.right) with
        | .nil => none
        | .node (some s) _ _ _ =>
            guLoop tree rest tree (out ++ [s]) (decoded + 1) size
        | .node none n l r =>
            guLoop tree rest (.node none n l r) out decoded size

/-- `generate_uncompressed(tree, text, size)`. -/
def generateUncompressed (tree : HTree) (text : List Nat) (size : Nat) :
    Option (List Nat) :=
  guLoop tree (text.flatMap byteToBits) tree [] 0 size

/-- The transformation performed by `uncompress` on the archive bytes:
one byte of node count, `node_count * 4` record bytes (`f.read` silently
returns fewer when the file is short), tree reconstruction with
`generate_tree_general`, four size bytes, then the payload. -/
def uncompressBytes (archive : List Nat) : Option (List Nat) := do
  let numNodes ← archive.head?
  let rest := archive.tail
  let buf := rest.take (numNodes * 4)
  let nodeLst ← bytesToNodes buf
  let tree ← genTreeGeneral nodeLst (numNodes - 1) numNodes
  let rest := rest.drop (numNodes * 4)
  let size := bytesToSize (rest.take 4)
  let text := rest.drop 4
  generateUncompressed tree text size

/-! ## Tree optimizer (`improve_tree`)

The Python function mutates symbols through node references held in a FIFO
queue.  The state is made explicit: the tree is threaded through the loop
and the queue holds *paths* (lists of booleans, `false` = left, `true` =
right) identifying the queued nodes inside the current tree. -/

/-- Follow a path from the root (`false` = left child, `true` = right). -/
def getAt : HTree → List Bool → HTree
  | t, [] => t
  | .nil, _ :: _ => .nil
  | .node _ _ l r, d :: p => getAt (if d then r else l) p

/-- `node.symbol = v` performed on the node at the given path. -/
def setSymAt : HTree → List Bool → Nat → HTree
  | .nil, _, _ => .nil
  | .node _ n l r, [], v => .node (some v) n l r
  | .node s n l r, d :: p, v =>
      if d then .node s n l (setSymAt r p v) else .node s n (setSymAt l p v) r

/-- Handling of one child (`cur.left` or `cur.right`) in the loop body of
`improve_tree`: a `None` child is skipped, a leaf child receives the next
priority symbol (`none` models the `IndexError` when `priorities` is
exhausted), an internal child is appended to the queue. -/
def improveChild (t : HTree) (q : List (List Bool)) (ps : List Nat)
    (cp : List Bool) : HTree → Option (HTree × List (List Bool) × List Nat)
  | .nil => some (t, q, ps)
  | .node (some _) _ _ _ =>
      match ps with
      | [] => none
      | s :: ps' => some (setSymAt t cp s, q, ps')
  | .node none _ _ _ => some (t, q ++ [cp], ps)

/-- The `while len(q) > 0` loop of `improve_tree`.  One unit of fuel per
iteration; the caller supplies enough for any finite tree. -/
def improveLoop : Nat → HTree → List (List Bool) → List Nat → Option HTree
  | 0, _, _, _ => none
  | fuel + 1, t, q, ps =>
      match q with
      | [] => some t
      | p :: q' =>
          match getAt t p with
          | .nil => none
          | .node _ _ l r => do
              let (t₁, q₁, ps₁) ← improveChild t q' ps (p ++ [false]) l
              let (t₂, q₂, ps₂) ← improveChild t₁ q₁ ps₁ (p ++ [true]) r
              improveLoop fuel t₂ q₂ ps₂

/-- `sorted(freq_dict.items(), key=lambda x: x[1], reverse=True)`: a stable
sort on descending frequency. -/
def sortDescByFreq (freq : List (Nat × Nat)) : List (Nat × Nat) :=
  freq.insertionSort (fun a b => b.2 ≤ a.2)

/-- `improve_tree(tree, freq_dict)`: breadth-first reassignment of leaf
symbols by descending frequency, starting from the queue `[tree]`. -/
def improveTree (tree : HTree) (freq : List (Nat × Nat)) : Option HTree :=
  improveLoop (tree.size + 1) tree [[]] ((sortDescByFreq freq).map Prod.fst)

/-! ## Breadth-first reading order (spec side, for the `improve_tree` claim)

Spec section 4.8 describes the order as "a breadth-first traversal of the
fixed shape, assigning symbols to leaves in the order leaves are
encountered"; a leaf is encountered when its parent is dequeued. -/

/-- Weight used to justify termination of the breadth-first traversal. -/
def bfsSize : HTree → Nat
  | .nil => 1
  | .node _ _ l r => 1 + bfsSize l + bfsSize r

/-- The symbol of a child if it is a leaf node, else nothing. -/
def leafSymOf : HTree → List Nat
  | .node (some s) _ _ _ => [s]
  | _ => []

/-- The child itself if it is an internal node (to be enqueued), else
nothing. -/
def intChildOf : HTree → List HTree
  | .node none n l r => [.node none n l r]
  | _ => []

/-- Leaf symbols of a forest in breadth-first encounter order: dequeue a
node, list the symbols of its leaf children (left first), enqueue its
internal children. -/
def bfsLeafSyms : List HTree → List Nat
  | [] => []
  | .nil :: q => bfsLeafSyms q
  | .node _ _ l r :: q =>
      leafSymOf l ++ leafSymOf r ++ bfsLeafSyms (q ++ intChildOf l ++ intChildOf r)
termination_by q => (q.map bfsSize).sum
decreasing_by
  · simp [bfsSize]
  · simp only [List.map_append, List.sum_append, List.map_cons, List.sum_cons, bfsSize]
    have hl : ((intChildOf l).map bfsSize).sum ≤ bfsSize l := by
      cases l with
      | nil => simp [intChildOf]
      | node s n a b => cases s <;> simp [intChildOf, bfsSize]
    have hr : ((intChildOf r).map bfsSize).sum ≤ bfsSize r := by
      cases r with
      | nil => simp [intChildOf]
      | node s n a b => cases s <;> simp [intChildOf, bfsSize]
    omega

/-- Structural equality up to leaf-symbol values: same shape, same `number`
attributes, leaves stay leaves and internal nodes stay internal, but the
symbol carried by a leaf may differ.  This is what `improve_tree` is
claimed to preserve. -/
def eqUpToLeafSyms : HTree → HTree → Bool
  | .nil, .nil => true
  | .node s n l r, .node s' n' l' r' =>
      n == n' && s.isSome == s'.isSome && eqUpToLeafSyms l l' && eqUpToLeafSyms r r'
  | _, _ => false

/-! ## Further spec-side and proof-side definitions -/

/-- The `number` attributes of the internal nodes of a tree, listed in
postorder (left subtree, right subtree, then the node itself), internal
nodes only — the order in which `number_nodes` visits and numbers them. -/
def postInternalNums : HTree → List (Option Nat)
  | .nil => []
  | .node s n l r =>
      postInternalNums l ++ postInternalNums r ++ (if s = none then [n] else [])

/-- Record kind emitted by `tree_to_bytes` for a child: `1` for an internal
child, `0` for a leaf child. -/
def childKind (c : HTree) : Nat :=
  if c.symbol = none then 1 else 0

/-- Record value emitted by `tree_to_bytes` for a child: the child's number
if internal, its symbol if a leaf (`0` stands for the unreachable cases). -/
def childVal : HTree → Nat
  | .node (some s) _ _ _ => s
  | .node none (some n) _ _ => n
  | _ => 0

/-- The `ReadNode` list corresponding to a numbered tree: one record per
internal node in postorder, as produced by `tree_to_bytes` followed by
`bytes_to_nodes`. -/
def nodeListOf : HTree → List ReadNode
  | .nil => []
  | .node (some _) _ _ _ => []
  | .node none _ l r =>
      nodeListOf l ++ nodeListOf r ++ [⟨childKind l, childVal l, childKind r, childVal r⟩]

/-- The `(symbol, code)` assignments performed by `get_codes_rec` on a
subtree, in traversal order. -/
def assignedList : HTree → List Char → List (Nat × List Char)
  | .nil, _ => []
  | .node (some s) _ _ _, code => [(s, code)]
  | .node none _ l r, code =>
      assignedList l (code ++ ['0']) ++ assignedList r (code ++ ['1'])

/-! # Theorems -/

/-! ## Frequency counting (claim C10) -/

theorem addCount_sum (d : List (Nat × Nat)) (b : Nat) :
    ((addCount d b).map Prod.snd).sum = (d.map Prod.snd).sum + 1 := by
  induction d with
  | nil => simp [addCount]
  | cons hd tl ih =>
    obtain ⟨k, v⟩ := hd
    by_cases h : k = b
    · simp [addCount, h]
      omega
    · simp [addCount, h, ih]
      omega

theorem foldl_addCount_sum (text : List Nat) :
    ∀ d : List (Nat × Nat),
      (((text.foldl addCount d)).map Prod.snd).sum = (d.map Prod.snd).sum + text.length := by
  induction text with
  | nil => simp
  | cons b rest ih =>
    intro d
    simp only [List.foldl_cons, ih (addCount d b), addCount_sum, List.length_cons]
    omega

theorem concatCodes_flatten (codes : List (Nat × List Char)) :
    ∀ text bs, concatCodes codes text = some bs →
      bs = (text.map (fun b => (dictLookup codes b).getD [])).flatten := by
  intro text
  induction text with
  | nil => intro bs h; simp [concatCodes] at h; simp [h.symm]
  | cons b rest ih =>
    intro bs h
    simp only [concatCodes] at h
    cases hb : dictLookup codes b with
    | none => rw [hb] at h; simp at h
    | some c =>
      rw [hb] at h
      cases hr : concatCodes codes rest with
      | none => rw [hr] at h; simp at h
      | some bs' =>
        rw [hr] at h
        have hc : c ++ bs' = bs := by simpa using h
        rw [← hc, ih bs' hr]
        simp [hb]

/-- Claim C10: the occurrence counts of `make_freq_dict(text)` sum to
`len(text)`; consequently the payload of `compress` is the concatenation of
exactly one code per input byte and the archive's 4-byte size field stores
`len(text)` (it round-trips through `size_to_bytes`/`bytes_to_size`), i.e.
the declared size equals the number of code occurrences in the payload. -/
theorem makeFreqDict_counts_sum_to_length (text : List Nat) :
    (((makeFreqDict text).map Prod.snd).sum = text.length) ∧
    (∀ codes bs, concatCodes codes text = some bs →
      bs = (text.map (fun b => (dictLookup codes b).getD [])).flatten) ∧
    (text.length < 2 ^ 32 →
      ∃ sb, sizeToBytes text.length = some sb ∧ bytesToSize sb = text.length) := by
  refine ⟨?_, fun codes bs h => concatCodes_flatten codes text bs h, fun h => ?_⟩
  · simpa using foldl_addCount_sum text []
  · refine ⟨[text.length % 256, text.length / 256 % 256,
      text.length / 256 ^ 2 % 256, text.length / 256 ^ 3 % 256], ?_, ?_⟩
    · simp only [sizeToBytes, if_pos h]
    · simp [bytesToSize]
      omega

theorem makeFreqDict_counts_sum_to_length_witness :
    ((makeFreqDict [65, 66, 67, 66]).map Prod.snd).sum = 4 ∧
    (∃ sb, sizeToBytes 4 = some sb ∧ bytesToSize sb = 4) :=
  ⟨(makeFreqDict_counts_sum_to_length [65, 66, 67, 66]).1,
   (makeFreqDict_counts_sum_to_length [65, 66, 67, 66]).2.2 (by decide)⟩

/-! ## Failure of compression on empty and single-symbol inputs (claim C1) -/

/-- Claim C1 (code evaluated at the failing inputs): compressing the empty
byte sequence fails inside tree construction (`huffman_tree` hits
`q[0][1]` on an empty queue, an `IndexError`), and compressing an input
with a single distinct byte also fails (`tree_to_bytes` dereferences the
`None` right child of the single-symbol tree), so the claimed round-trip
does not hold for these inputs. -/
theorem compress_fails_on_empty_and_single_symbol :
    huffmanTree [] = none ∧ compressBytes [] = none ∧ compressBytes [65] = none := by
  refine ⟨by decide, by decide, by decide⟩

/-! ## The single-symbol tree and its code (claims C2, C3) -/

/-- Claim C2, counterexample: for the one-symbol table `{7: 1}` the code
table maps `7` to `"0"`, not to `"1"` as claimed (`get_codes_rec` walks
into the left child with accumulator `"0"`; the dedicated `"1"` special
case exists only in the draft `untitled2.py`, whose single-symbol tree is a
bare leaf). -/
theorem single_symbol_code_is_zero_not_one :
    (huffmanTree [(7, 1)]).map getCodes = some [(7, ['0'])] ∧
    (huffmanTree [(7, 1)]).map getCodes ≠ some [(7, ['1'])] := by
  decide

/-- Claim C2 as amended: for every single-symbol frequency table,
`huffman_tree` returns a tree with one internal root whose left child is a
leaf carrying the symbol (the right child is `None`), and `get_codes` maps
the symbol to the one-character code `"0"`. -/
theorem huffmanTree_single_symbol (s w : Nat) :
    huffmanTree [(s, w)] = some (.node none none (.node (some s) none .nil .nil) .nil) ∧
    getCodes (.node none none (.node (some s) none .nil .nil) .nil) = [(s, ['0'])] := by
  constructor
  · simp [huffmanTree, sortByWeight, List.insertionSort, List.orderedInsert, HTree.symbol]
  · simp [getCodes, getCodesRec, dictInsert]

/-- Claim C3, counterexample: on the non-empty table `{5: 2}` the tree
returned by `huffman_tree` is not strict — its root is an internal node
(symbol `None`) whose right child is `None`. -/
theorem huffmanTree_single_not_strict :
    (huffmanTree [(5, 2)]).map HTree.strictB = some false := by
  decide

theorem mem_sortByWeight {x : Nat × HTree} {q : List (Nat × HTree)} :
    x ∈ sortByWeight q ↔ x ∈ q :=
  (List.perm_insertionSort _ q).mem_iff

theorem sortByWeight_length (q : List (Nat × HTree)) :
    (sortByWeight q).length = q.length := by
  simp [sortByWeight, List.length_insertionSort]

theorem mergeLoopGo_strict :
    ∀ fuel (q : List (Nat × HTree)), (∀ x ∈ q, HTree.strictB x.2 = true) →
      q ≠ [] → q.length ≤ fuel + 1 →
      ∃ t, mergeLoopGo fuel q = some t ∧ HTree.strictB t = true := by
  intro fuel
  induction fuel with
  | zero =>
    intro q hq hne hlen
    match q with
    | [x] => exact ⟨x.2, rfl, hq x (by simp)⟩
  | succ fuel ih =>
    intro q hq hne hlen
    match q with
    | [x] => exact ⟨x.2, rfl, hq x (by simp)⟩
    | a :: b :: rest =>
      apply ih
      · intro x hx
        rw [mem_sortByWeight] at hx
        rcases List.mem_append.mp hx with h | h
        · exact hq x (by simp [h])
        · have hx' : x = (a.1 + b.1, HTree.node none none a.2 b.2) := by simpa using h
        
          have ha := hq a (by simp)
          have hb := hq b (by simp)
          rw [hx']
          simp [HTree.strictB, ha, hb]
      · intro habs
        have := congrArg List.length habs
        simp [sortByWeight_length] at this
      · have : (sortByWeight (rest ++ [(a.1 + b.1, HTree.node none none a.2 b.2)])).length
            = rest.length + 1 := by simp [sortByWeight_length]
        simp only [this]
        simp at hlen
        omega

/-- Claim C3 as amended: for every frequency table with at least **two**
entries, `huffman_tree` returns a strict binary tree (every internal node
has two non-null children, every leaf carries a symbol and has none).  The
single-entry case is the counterexample above. -/
theorem huffmanTree_strict_of_two_symbols (freq : List (Nat × Nat))
    (h : 2 ≤ freq.length) :
    ∃ t, huffmanTree freq = some t ∧ HTree.strictB t = true := by
  simp only [huffmanTree]
  have hlen : (sortByWeight (freq.map fun kv =>
      (kv.2, HTree.node (some kv.1) .none .nil .nil))).length = freq.length := by
    simp [sortByWeight_length]
  rw [if_neg (by omega)]
  apply mergeLoopGo_strict
  · intro x hx
    rw [mem_sortByWeight] at hx
    rcases List.mem_map.mp hx with ⟨kv, _, hkv⟩
    rw [← hkv]
    simp [HTree.strictB]
  · intro habs
    rw [habs] at hlen
    simp at hlen
    omega
  · omega

theorem huffmanTree_strict_of_two_symbols_witness :
    ∃ t, huffmanTree [(1, 1), (2, 2)] = some t ∧ HTree.strictB t = true :=
  huffmanTree_strict_of_two_symbols [(1, 1), (2, 2)] (by decide)

/-! ## Postorder numbering (claim C7) -/

theorem numberNodesRec_spec (t : HTree) : ∀ num : Nat,
    (numberNodesRec t num).2 = num + t.internalCount ∧
    postInternalNums (numberNodesRec t num).1 =
      (List.range' num t.internalCount).map some := by
  induction t with
  | nil => intro num; simp [numberNodesRec, HTree.internalCount, postInternalNums]
  | node s n l r ihl ihr =>
    intro num
    obtain ⟨hl2, hl1⟩ := ihl num
    obtain ⟨hr2, hr1⟩ := ihr (num + l.internalCount)
    have hsplit : List.range' num l.internalCount ++
        List.range' (num + l.internalCount) r.internalCount =
        List.range' num (l.internalCount + r.internalCount) := by
      have := List.range'_append num l.internalCount r.internalCount 1
      simpa [Nat.add_comm] using this
    cases s with
    | none =>
      refine ⟨by simp [numberNodesRec, HTree.internalCount, hl2, hr2]; omega, ?_⟩
      have hcount : (HTree.node none n l r).internalCount
          = l.internalCount + r.internalCount + 1 := by simp [HTree.internalCount]
      rw [hcount, List.range'_1_concat, List.map_append, ← hsplit, List.map_append]
      simp [numberNodesRec, postInternalNums, hl1, hl2, hr1, hr2, List.append_assoc,
        Nat.add_assoc]
    | some v =>
      refine ⟨by simp [numberNodesRec, HTree.internalCount, hl2, hr2]; omega, ?_⟩
      have hcount : (HTree.node (some v) n l r).internalCount
          = l.internalCount + r.internalCount := by simp [HTree.internalCount]
      rw [hcount, ← hsplit, List.map_append]
      simp [numberNodesRec, postInternalNums, hl1, hl2, hr1]

/-- Claim C7: `number_nodes` assigns to the internal nodes, in postorder
visitation order (left subtree, right subtree, self; internal nodes only),
exactly the distinct integers `0 .. count-1` where `count` is the number of
internal nodes, and an internal root receives `count - 1`. -/
theorem number_nodes_assigns_postorder_range (t : HTree) :
    postInternalNums (numberNodes t) = (List.range t.internalCount).map some ∧
    (t.isInternalB = true → (numberNodes t).number = some (t.internalCount - 1)) := by
  constructor
  · have h := (numberNodesRec_spec t 0).2
    rw [List.range_eq_range']
    simpa using h
  · intro hint
    match t, hint with
    | .node none n l r, _ =>
      have hl := (numberNodesRec_spec l 0).1
      have hr := (numberNodesRec_spec r (numberNodesRec l 0).2).1
      rw [hl] at hr
      simp [numberNodes, numberNodesRec, HTree.number, HTree.internalCount, hl]
      simpa using hr

theorem number_nodes_assigns_postorder_range_witness :
    (numberNodes (.node none none
        (.node none none (.node (some 3) none .nil .nil) (.node (some 2) none .nil .nil))
        (.node none none (.node (some 9) none .nil .nil) (.node (some 10) none .nil .nil)))).number
      = some 2 :=
  (number_nodes_assigns_postorder_range _).2 (by decide)

/-! ## `avg_length` computes the exact weighted average (claim C8) -/

theorem avgLoop_spec (codes : List (Nat × List Char)) :
    ∀ (l : List (Nat × Nat)) (avg tot : Nat),
      (∀ kv ∈ l, (dictLookup codes kv.1).isSome) →
      avgLoop codes l avg tot =
        some (avg + (l.map (fun kv => ((dictLookup codes kv.1).getD []).length * kv.2)).sum,
              tot + (l.map Prod.snd).sum) := by
  intro l
  induction l with
  | nil => intro avg tot _; simp [avgLoop]
  | cons kv rest ih =>
    intro avg tot h
    obtain ⟨k, f⟩ := kv
    obtain ⟨c, hc⟩ := Option.isSome_iff_exists.mp (h (k, f) (by simp))
    simp only [avgLoop, hc]
    rw [ih _ _ (fun kv hkv => h kv (by simp [hkv]))]
    simp [hc]
    constructor <;> omega

/-- Claim C8: whenever every symbol of `freq_dict` has a code in
`get_codes(tree)` (the tree's leaves cover the table) and the total
frequency is non-zero, `avg_length(tree, freq_dict)` equals exactly
`sum(len(code[s]) * freq[s] for s in freq) / sum(freq.values())`. -/
theorem avg_length_exact_formula (tree : HTree) (freq : List (Nat × Nat))
    (hcov : ∀ kv ∈ freq, (dictLookup (getCodes tree) kv.1).isSome)
    (hpos : (freq.map Prod.snd).sum ≠ 0) :
    avgLength tree freq =
      some ((((freq.map (fun kv =>
          ((dictLookup (getCodes tree) kv.1).getD []).length * kv.2)).sum : Nat) : ℚ)
        / (((freq.map Prod.snd).sum : Nat) : ℚ)) := by
  simp only [avgLength, avgLoop_spec (getCodes tree) freq 0 0 hcov]
  simp only [Nat.zero_add]
  rw [if_neg hpos]

theorem avg_length_exact_formula_witness :
    avgLength
        (.node none none
          (.node none none (.node (some 3) none .nil .nil) (.node (some 2) none .nil .nil))
          (.node (some 9) none .nil .nil))
        [(3, 2), (2, 7), (9, 1)] = some (19 / 10) := by
  rw [avg_length_exact_formula _ _ (by decide) (by decide)]
  norm_num [getCodes, getCodesRec, dictInsert, dictLookup]

/-! ## Prefix-freeness of the derived code table (claim C6) -/

theorem dictLookup_dictInsert (d : List (Nat × α)) (k : Nat) (v : α) (k' : Nat) :
    dictLookup (dictInsert d k v) k' = if k = k' then some v else dictLookup d k' := by
  induction d with
  | nil => simp [dictInsert, dictLookup]
  | cons hd tl ih =>
    obtain ⟨k'', v''⟩ := hd
    by_cases h1 : k'' = k
    · subst h1
      by_cases h2 : k'' = k' <;> simp [dictInsert, dictLookup, h2]
    · by_cases h2 : k'' = k'
      · subst h2
        have : ¬ k = k'' := fun h => h1 h.symm
        simp [dictInsert, dictLookup, h1, this]
      · simp [dictInsert, dictLookup, h1, h2, ih]

theorem getCodesRec_eq_foldl (t : HTree) :
    ∀ code d, getCodesRec t code d =
      (assignedList t code).foldl (fun d p => dictInsert d p.1 p.2) d := by
  induction t with
  | nil => intro code d; simp [getCodesRec, assignedList]
  | node s n l r ihl ihr =>
    intro code d
    cases s with
    | some v => simp [getCodesRec, assignedList]
    | none => simp [getCodesRec, assignedList, ihl, ihr, List.foldl_append]

theorem dictLookup_foldl_insert (A : List (Nat × List Char)) :
    ∀ (d : List (Nat × List Char)) k c,
      dictLookup (A.foldl (fun d p => dictInsert d p.1 p.2) d) k = some c →
      (k, c) ∈ A ∨ dictLookup d k = some c := by
  induction A with
  | nil => intro d k c h; exact Or.inr h
  | cons a A' ih =>
    intro d k c h
    rcases ih _ k c h with h' | h'
    · exact Or.inl (List.mem_cons_of_mem _ h')
    · rw [dictLookup_dictInsert] at h'
      by_cases hk : a.1 = k
      · subst hk
        rw [if_pos rfl] at h'
        obtain rfl : a.2 = c := by simpa using h'
        exact Or.inl (by simp)
      · rw [if_neg hk] at h'
        exact Or.inr h'

theorem assigned_prefix (t : HTree) :
    ∀ code, ∀ p ∈ assignedList t code, code <+: p.2 := by
  induction t with
  | nil => intro code p hp; simp [assignedList] at hp
  | node s n l r ihl ihr =>
    intro code p hp
    cases s with
    | some v =>
      simp [assignedList] at hp
      simp [hp]
    | none =>
      simp only [assignedList] at hp
      rcases List.mem_append.mp hp with h | h
      · exact List.IsPrefix.trans (by simp) (ihl _ p h)
      · exact List.IsPrefix.trans (by simp) (ihr _ p h)

theorem prefix_incomparable_of_distinct_branch {a x y : List Char} {c c' : Char}
    (hcc : c ≠ c') (hx : a ++ [c] <+: x) (hy : a ++ [c'] <+: y) : ¬ x <+: y := by
  intro hxy
  have hx' : a ++ [c] <+: y := hx.trans hxy
  have := List.prefix_or_prefix_of_prefix hx' hy
  have heq : a ++ [c] = a ++ [c'] := by
    rcases this with h | h
    · exact h.eq_of_length (by simp)
    · exact (h.eq_of_length (by simp)).symm
  exact hcc (by simpa using heq)

theorem assigned_pairwise_incomparable (t : HTree) :
    ∀ code, (assignedList t code).Pairwise
      (fun p q => ¬ p.2 <+: q.2 ∧ ¬ q.2 <+: p.2) := by
  induction t with
  | nil => intro code; simp [assignedList]
  | node s n l r ihl ihr =>
    intro code
    cases s with
    | some v => simp [assignedList]
    | none =>
      simp only [assignedList]
      refine List.pairwise_append.mpr ⟨ihl _, ihr _, ?_⟩
      intro p hp q hq
      have h0 := assigned_prefix l (code ++ ['0']) p hp
      have h1 := assigned_prefix r (code ++ ['1']) q hq
      exact ⟨prefix_incomparable_of_distinct_branch (by decide) h0 h1,
        prefix_incomparable_of_distinct_branch (by decide) h1 h0⟩

theorem sortByWeight_singleton (x : Nat × HTree) : sortByWeight [x] = [x] := by
  simp [sortByWeight, List.insertionSort, List.orderedInsert]

theorem mergeLoopGo_internal :
    ∀ fuel (q : List (Nat × HTree)), 2 ≤ q.length → q.length ≤ fuel + 1 →
      ∃ nn ll rr, mergeLoopGo fuel q = some (.node none nn ll rr) := by
  intro fuel
  induction fuel with
  | zero => intro q h2 h1; omega
  | succ fuel ih =>
    intro q h2 h1
    match q, h2 with
    | a :: b :: rest, _ =>
      match rest with
      | [] =>
        refine ⟨none, a.2, b.2, ?_⟩
        simp [mergeLoopGo, sortByWeight_singleton]
      | c :: rest' =>
        have hq' : (sortByWeight ((c :: rest') ++
            [(a.1 + b.1, HTree.node none none a.2 b.2)])).length = rest'.length + 2 := by
          simp [sortByWeight_length]
        refine ih _ (by omega) ?_
        simp at h1
        omega

/-- The root returned by `huffman_tree` on a non-empty table is always an
internal node (symbol `None`). -/
theorem huffmanTree_internal_root (freq : List (Nat × Nat)) (hne : freq ≠ []) :
    ∃ nn ll rr, huffmanTree freq = some (.node none nn ll rr) := by
  simp only [huffmanTree]
  have hlen : (sortByWeight (freq.map fun kv =>
      (kv.2, HTree.node (some kv.1) .none .nil .nil))).length = freq.length := by
    simp [sortByWeight_length]
  by_cases h1 : (sortByWeight (freq.map fun kv =>
      (kv.2, HTree.node (some kv.1) .none .nil .nil))).length = 1
  · rw [if_pos h1]
    obtain ⟨x, xs, hq⟩ : ∃ x xs, sortByWeight (freq.map fun kv =>
        (kv.2, HTree.node (some kv.1) .none .nil .nil)) = x :: xs := by
      match hsw : sortByWeight (freq.map fun kv =>
          (kv.2, HTree.node (some kv.1) .none .nil .nil)) with
      | [] => rw [hsw] at h1; simp at h1
      | x :: xs => exact ⟨x, xs, hsw⟩
    rw [hq]
    exact ⟨none, _, _, rfl⟩
  · rw [if_neg h1]
    have hlen2 : freq.length ≠ 0 := by
      intro h
      exact hne (List.eq_nil_of_length_eq_zero h)
    apply mergeLoopGo_internal
    · omega
    · omega

/-- Claim C6: for every non-empty frequency table, the code table
`get_codes(huffman_tree(freq))` maps symbols to non-empty bit strings and
is prefix-free: the codes of two distinct symbols are never prefixes of one
another (in particular no proper prefixes). -/
theorem get_codes_prefix_free (freq : List (Nat × Nat)) (hne : freq ≠ []) :
    ∃ t, huffmanTree freq = some t ∧
      (∀ s c, dictLookup (getCodes t) s = some c → c ≠ []) ∧
      (∀ s c s' c', dictLookup (getCodes t) s = some c →
        dictLookup (getCodes t) s' = some c' → s ≠ s' → ¬ c <+: c') := by
  obtain ⟨nn, ll, rr, ht⟩ := huffmanTree_internal_root freq hne
  refine ⟨_, ht, ?_, ?_⟩
  · intro s c hc
    rw [getCodes, getCodesRec_eq_foldl] at hc
    rcases dictLookup_foldl_insert _ _ _ _ hc with h | h
    · have := assigned_prefix (.node none nn ll rr) [] (s, c) h
      intro hnil
      have hmem := h
      simp only [assignedList] at hmem
      rcases List.mem_append.mp hmem with h' | h'
      · have h0 := assigned_prefix ll (([] : List Char) ++ ['0']) (s, c) h'
        have := h0.length_le
        simp [hnil] at this
      · have h1 := assigned_prefix rr (([] : List Char) ++ ['1']) (s, c) h'
        have := h1.length_le
        simp [hnil] at this
    · simp [dictLookup] at h
  · intro s c s' c' hc hc' hss
    rw [getCodes, getCodesRec_eq_foldl] at hc hc'
    rcases dictLookup_foldl_insert _ _ _ _ hc with h | h
    swap
    · simp [dictLookup] at h
    rcases dictLookup_foldl_insert _ _ _ _ hc' with h' | h'
    swap
    · simp [dictLookup] at h'
    have hpw := assigned_pairwise_incomparable (.node none nn ll rr) []
    have hsym : Symmetric (fun p q : Nat × List Char =>
        ¬ p.2 <+: q.2 ∧ ¬ q.2 <+: p.2) := by
      intro p q hpq
      exact ⟨hpq.2, hpq.1⟩
    have hne' : (s, c) ≠ (s', c') := by
      intro habs
      exact hss (congrArg Prod.fst habs)
    exact (hpw.forall hsym h h' hne').1

theorem get_codes_prefix_free_witness :
    ∃ t, huffmanTree [(3, 4), (2, 6)] = some t ∧
      (∀ s c, dictLookup (getCodes t) s = some c → c ≠ []) ∧
      (∀ s c s' c', dictLookup (getCodes t) s = some c →
        dictLookup (getCodes t) s' = some c' → s ≠ s' → ¬ c <+: c') :=
  get_codes_prefix_free [(3, 4), (2, 6)] (by decide)

/-! ## Decompression on truncated archives (claim C4) -/

/-- Claim C4, counterexample: an archive declaring one tree node and a
size of 5 whose payload is empty decompresses *successfully* to the empty
output — no format error is signaled even though 5 symbols were declared
and 0 were produced. -/
theorem uncompress_truncated_archive_succeeds :
    uncompressBytes [1, 0, 3, 0, 2, 5, 0, 0, 0] = some [] := by
  decide

theorem guLoop_total (root : HTree) (hrs : HTree.strictB root = true)
    (hri : root.isInternalB = true) :
    ∀ (bits : List Char) (cur : HTree) (out : List Nat) (dec size : Nat),
      HTree.strictB cur = true → cur.isInternalB = true →
      out.length = dec → dec ≤ size →
      ∃ res, guLoop root bits cur out dec size = some res ∧ res.length ≤ size := by
  intro bits
  induction bits with
  | nil => intro cur out dec size _ _ hlen hle; exact ⟨out, rfl, by omega⟩
  | cons bit rest ih =>
    intro cur out dec size hs hi hlen hle
    by_cases hdec : dec = size
    · exact ⟨out, by simp [guLoop, hdec], by omega⟩
    · match cur, hs, hi with
      | .node none n l r, hs', _ =>
        have hsl : HTree.strictB l = true := by
          simp [HTree.strictB] at hs'
          exact hs'.1
        have hsr : HTree.strictB r = true := by
          simp [HTree.strictB] at hs'
          exact hs'.2
        by_cases hbit : bit = '0'
        · subst hbit
          match l, hsl with
          | .nil, h => exact absurd h (by simp [HTree.strictB])
          | .node (some s) n' l' r', _ =>
            obtain ⟨res, hres, hlen'⟩ :=
              ih root (out ++ [s]) (dec + 1) size hrs hri (by simp [hlen]) (by omega)
            exact ⟨res, by simp [guLoop, if_neg hdec, HTree.left, hres], hlen'⟩
          | .node none n' l' r', hsl' =>
            obtain ⟨res, hres, hlen'⟩ :=
              ih (.node none n' l' r') out dec size hsl' (by simp [HTree.isInternalB])
                hlen hle
            exact ⟨res, by simp [guLoop, if_neg hdec, HTree.left, hres], hlen'⟩
        · match r, hsr with
          | .nil, h => exact absurd h (by simp [HTree.strictB])
          | .node (some s) n' l' r', _ =>
            obtain ⟨res, hres, hlen'⟩ :=
              ih root (out ++ [s]) (dec + 1) size hrs hri (by simp [hlen]) (by omega)
            exact ⟨res, by simp [guLoop, if_neg hdec, if_neg hbit, HTree.right, hres], hlen'⟩
          | .node none n' l' r', hsr' =>
            obtain ⟨res, hres, hlen'⟩ :=
              ih (.node none n' l' r') out dec size hsr' (by simp [HTree.isInternalB])
                hlen hle
            exact ⟨res, by simp [guLoop, if_neg hdec, if_neg hbit, HTree.right, hres], hlen'⟩

/-- Claim C4 as amended: on a strict tree with an internal root,
`generate_uncompressed` never signals any error: for *every* payload and
declared size it returns `some` output with at most `size` symbols, so a
payload containing fewer complete codes than the declared size silently
yields a truncated output (the counterexample above shows a strictly
shorter one).  A record buffer shorter than `node_count * 4` bytes instead
surfaces as an unhandled `IndexError` inside `bytes_to_nodes` or
`generate_tree_general`, not as a clearly signaled format error. -/
theorem generate_uncompressed_never_fails (t : HTree) (text : List Nat) (size : Nat)
    (hs : HTree.strictB t = true) (hi : t.isInternalB = true) :
    ∃ out, generateUncompressed t text size = some out ∧ out.length ≤ size :=
  guLoop_total t hs hi (text.flatMap byteToBits) t [] 0 size hs hi rfl (Nat.zero_le _)

theorem generate_uncompressed_never_fails_witness :
    ∃ out, generateUncompressed
        (.node none none (.node (some 3) none .nil .nil) (.node (some 2) none .nil .nil))
        [] 5 = some out ∧ out.length ≤ 5 :=
  generate_uncompressed_never_fails _ [] 5 (by decide) (by decide)

/-! ## Serialization / deserialization round-trip (claim C5) -/

theorem numberNodesRec_fst_eq_nil_iff (t : HTree) (b : Nat) :
    (numberNodesRec t b).1 = HTree.nil ↔ t = HTree.nil := by
  cases t with
  | nil => simp [numberNodesRec]
  | node s n l r => by_cases hs : s = none <;> simp [numberNodesRec, hs]

theorem strictB_numberNodesRec (t : HTree) : ∀ b,
    HTree.strictB (numberNodesRec t b).1 = HTree.strictB t := by
  induction t with
  | nil => intro b; simp [numberNodesRec]
  | node s n l r ihl ihr =>
    intro b
    cases s with
    | some v =>
      simp [numberNodesRec, HTree.strictB, numberNodesRec_fst_eq_nil_iff]
    | none =>
      simp [numberNodesRec, HTree.strictB, ihl, ihr]

theorem internalCount_numberNodesRec (t : HTree) : ∀ b,
    HTree.internalCount (numberNodesRec t b).1 = HTree.internalCount t := by
  induction t with
  | nil => intro b; simp [numberNodesRec]
  | node s n l r ihl ihr =>
    intro b
    cases s with
    | some v => simp [numberNodesRec, HTree.internalCount, ihl, ihr]
    | none => simp [numberNodesRec, HTree.internalCount, ihl, ihr]

theorem stripNum_numberNodesRec (t : HTree) : ∀ b,
    HTree.stripNum (numberNodesRec t b).1 = HTree.stripNum t := by
  induction t with
  | nil => intro b; simp [numberNodesRec]
  | node s n l r ihl ihr =>
    intro b
    cases s with
    | some v => simp [numberNodesRec, HTree.stripNum, ihl, ihr]
    | none => simp [numberNodesRec, HTree.stripNum, ihl, ihr]

theorem numberNodesRec_internal_number (t : HTree) (b : Nat) (hi : t.isInternalB = true) :
    (numberNodesRec t b).1.number = some (b + t.internalCount - 1) := by
  match t, hi with
  | .node none n l r, _ =>
    have hl := (numberNodesRec_spec l b).1
    have hr := (numberNodesRec_spec r (numberNodesRec l b).2).1
    rw [hl] at hr
    simp [numberNodesRec, HTree.number, HTree.internalCount, hl]
    omega

theorem length_nodeListOf (t : HTree) : HTree.strictB t = true →
    (nodeListOf t).length = t.internalCount := by
  induction t with
  | nil => simp [HTree.strictB]
  | node s n l r ihl ihr =>
    intro h
    cases s with
    | some v =>
      simp [HTree.strictB] at h
      obtain ⟨rfl, rfl⟩ := h
      simp [nodeListOf, HTree.internalCount]
    | none =>
      simp [HTree.strictB] at h
      simp [nodeListOf, HTree.internalCount, ihl h.1, ihr h.2]
      omega

theorem bytesToNodes_flat : ∀ rs : List ReadNode,
    bytesToNodes (rs.flatMap (fun rn => [rn.l_type, rn.l_data, rn.r_type, rn.r_data]))
      = some rs := by
  intro rs
  induction rs with
  | nil => simp [bytesToNodes]
  | cons rn rest ih =>
    have hstep : (rn :: rest).flatMap (fun rn => [rn.l_type, rn.l_data, rn.r_type, rn.r_data])
        = rn.l_type :: rn.l_data :: rn.r_type :: rn.r_data
          :: rest.flatMap (fun rn => [rn.l_type, rn.l_data, rn.r_type, rn.r_data]) := by
      simp
    rw [hstep]
    simp only [bytesToNodes, ih, Option.map_some]
    rfl

theorem childBytes_numbered (t : HTree) (b : Nat) (hs : HTree.strictB t = true) :
    childBytes (numberNodesRec t b).1
      = some [childKind (numberNodesRec t b).1, childVal (numberNodesRec t b).1] := by
  match t with
  | .nil => simp [HTree.strictB] at hs
  | .node (some v) n l r =>
    simp [numberNodesRec, childBytes, childKind, childVal, HTree.symbol]
  | .node none n l r =>
    simp [numberNodesRec, childBytes, childKind, childVal, HTree.symbol]

theorem treeToBytesRec_numbered (t : HTree) : ∀ b, HTree.strictB t = true →
    treeToBytesRec (numberNodesRec t b).1
      = some ((nodeListOf (numberNodesRec t b).1).flatMap
          (fun rn => [rn.l_type, rn.l_data, rn.r_type, rn.r_data])) := by
  induction t with
  | nil => intro b hs; simp [HTree.strictB] at hs
  | node s n l r ihl ihr =>
    intro b hs
    cases s with
    | some v =>
      have : HTree.strictB (.node (some v) .none .nil .nil) = true := by
        simp [HTree.strictB]
      simp [HTree.strictB] at hs
      obtain ⟨rfl, rfl⟩ := hs
      simp [numberNodesRec, treeToBytesRec, nodeListOf]
    | none =>
      simp [HTree.strictB] at hs
      have h1 := ihl b hs.1
      have h2 := ihr (numberNodesRec l b).2 hs.2
      have h3 := childBytes_numbered l b hs.1
      have h4 := childBytes_numbered r (numberNodesRec l b).2 hs.2
      simp [numberNodesRec, treeToBytesRec, nodeListOf, h1, h2, h3, h4]

theorem strict_cases (t : HTree) (h : HTree.strictB t = true) :
    (∃ sv nv, t = .node (some sv) nv .nil .nil) ∨
    (∃ nv l r, t = .node none nv l r ∧
      HTree.strictB l = true ∧ HTree.strictB r = true) := by
  match t with
  | .nil => simp [HTree.strictB] at h
  | .node (some sv) nv l r =>
    left
    simp [HTree.strictB] at h
    obtain ⟨rfl, rfl⟩ := h
    exact ⟨sv, nv, rfl⟩
  | .node none nv l r =>
    right
    simp [HTree.strictB] at h
    exact ⟨nv, l, r, rfl, h.1, h.2⟩

theorem internalCount_pos_of_internal (t : HTree) (h : t.isInternalB = true) :
    1 ≤ t.internalCount := by
  match t, h with
  | .node none n l r, _ => simp [HTree.internalCount]

theorem genTreePostRec_correct :
    ∀ (t : HTree) (N : List ReadNode) (i fuel : Nat),
      HTree.strictB t = true → t.isInternalB = true →
      t.internalCount ≤ i + 1 → t.internalCount ≤ fuel →
      (∀ j, j < t.internalCount →
        N.get? (i + 1 - t.internalCount + j) = (nodeListOf t).get? j) →
      genTreePostRec N i fuel = some (i + 1 - t.internalCount, HTree.stripNum t) := by
  intro t
  induction t with
  | nil => intro N i fuel hs _ _ _ _; simp [HTree.strictB] at hs
  | node s n l r ihl ihr =>
    intro N i fuel hs hi hile hfuel hslice
    match s, hi with
    | none, _ =>
      simp only [HTree.strictB, Bool.and_eq_true] at hs
      obtain ⟨hsl, hsr⟩ := hs
      have hcnt : (HTree.node none n l r).internalCount
          = l.internalCount + r.internalCount + 1 := by
        simp [HTree.internalCount]
      rw [hcnt] at hile hfuel hslice ⊢
      have hNt : nodeListOf (HTree.node none n l r)
          = (nodeListOf l ++ nodeListOf r)
            ++ [⟨childKind l, childVal l, childKind r, childVal r⟩] := by
        simp [nodeListOf]
      have hlenl := length_nodeListOf l hsl
      have hlenr := length_nodeListOf r hsr
      obtain ⟨fuel', rfl⟩ : ∃ fuel', fuel = fuel' + 1 := by
        refine ⟨fuel - 1, ?_⟩
        omega
      have hroot : N.get? i
          = some ⟨childKind l, childVal l, childKind r, childVal r⟩ := by
        have h0 := hslice (l.internalCount + r.internalCount) (by omega)
        rw [hNt] at h0
        rw [List.get?_append_right (by rw [List.length_append, hlenl, hlenr])]
          at h0
        rw [show i + 1 - (l.internalCount + r.internalCount + 1)
            + (l.internalCount + r.internalCount) = i from by omega] at h0
        rw [show l.internalCount + r.internalCount
            - (nodeListOf l ++ nodeListOf r).length = 0 from by
          rw [List.length_append, hlenl, hlenr]; omega] at h0
        exact h0
      have hright : (if childKind r = 1 then genTreePostRec N (i - 1) fuel'
          else some (i, .node (some (childVal r)) none .nil .nil))
          = some (i - r.internalCount, HTree.stripNum r) := by
        rcases strict_cases r hsr with ⟨sv, nv, rfl⟩ | ⟨nv, rl, rr, rfl, hsrl, hsrr⟩
        · rw [if_neg (by simp [childKind, HTree.symbol])]
          simp [childVal, HTree.stripNum, HTree.internalCount]
        · have hint : (HTree.node none nv rl rr).isInternalB = true := by
            simp [HTree.isInternalB]
          have hpos := internalCount_pos_of_internal _ hint
          rw [if_pos (by simp [childKind, HTree.symbol])]
          have hslice' : ∀ j, j < (HTree.node none nv rl rr).internalCount →
              N.get? ((i - 1) + 1 - (HTree.node none nv rl rr).internalCount + j)
                = (nodeListOf (HTree.node none nv rl rr)).get? j := by
            intro j hj
            have h0 := hslice (l.internalCount + j) (by omega)
            rw [hNt] at h0
            rw [List.get?_append (by rw [List.length_append, hlenl, hlenr]; omega)] at h0
            rw [List.get?_append_right (by rw [hlenl]; omega)] at h0
            rw [show l.internalCount + j - (nodeListOf l).length = j from by
              rw [hlenl]; omega] at h0
            rw [show (i - 1) + 1 - (HTree.node none nv rl rr).internalCount + j
                = i + 1 - (l.internalCount + (HTree.node none nv rl rr).internalCount + 1)
                  + (l.internalCount + j) from by omega]
            exact h0
          have := ihr N (i - 1) fuel' hsr hint (by omega) (by omega) hslice'
          rw [this]
          congr 2
          omega
      have hleft : (if childKind l = 1
          then genTreePostRec N ((i - r.internalCount) - 1) fuel'
          else some ((i - r.internalCount), .node (some (childVal l)) none .nil .nil))
          = some (i - r.internalCount - l.internalCount, HTree.stripNum l) := by
        rcases strict_cases l hsl with ⟨sv, nv, rfl⟩ | ⟨nv, ll, lr, rfl, hsll, hslr⟩
        · rw [if_neg (by simp [childKind, HTree.symbol])]
          simp [childVal, HTree.stripNum, HTree.internalCount]
        · have hint : (HTree.node none nv ll lr).isInternalB = true := by
            simp [HTree.isInternalB]
          have hpos := internalCount_pos_of_internal _ hint
          rw [if_pos (by simp [childKind, HTree.symbol])]
          have hslice' : ∀ j, j < (HTree.node none nv ll lr).internalCount →
              N.get? ((i - r.internalCount - 1) + 1
                  - (HTree.node none nv ll lr).internalCount + j)
                = (nodeListOf (HTree.node none nv ll lr)).get? j := by
            intro j hj
            have h0 := hslice j (by omega)
            rw [hNt] at h0
            rw [List.get?_append (by rw [List.length_append, hlenl, hlenr]; omega)] at h0
            rw [List.get?_append (by rw [hlenl]; omega)] at h0
            rw [show (i - r.internalCount - 1) + 1
                - (HTree.node none nv ll lr).internalCount + j
                = i + 1 - ((HTree.node none nv ll lr).internalCount
                  + r.internalCount + 1) + j from by omega]
            exact h0
          have := ihl N (i - r.internalCount - 1) fuel' hsl hint (by omega) (by omega)
            hslice'
          rw [this]
          congr 2
          omega
      simp only [genTreePostRec, hroot]
      by_cases hck : childKind r = 1
      · rw [if_pos hck] at hright
        rw [if_pos hck, hright]
        simp only [Option.bind_eq_bind, Option.some_bind]
        by_cases hcl : childKind l = 1
        · rw [if_pos hcl] at hleft
          rw [if_pos hcl, hleft]
          simp only [Option.some_bind, Option.pure_def, Option.some.injEq, Prod.mk.injEq,
            HTree.stripNum, and_true, true_and]
          omega
        · rw [if_neg hcl] at hleft
          simp only [Option.some.injEq, Prod.mk.injEq] at hleft
          obtain ⟨h1, h2⟩ := hleft
          rw [if_neg hcl]
          simp only [Option.some_bind, Option.pure_def, Option.some.injEq, Prod.mk.injEq,
            HTree.stripNum, and_true, true_and]
          exact ⟨by omega, by rw [h2]⟩
      · rw [if_neg hck] at hright
        simp only [Option.some.injEq, Prod.mk.injEq] at hright
        obtain ⟨hr1, hr2⟩ := hright
        rw [if_neg hck]
        simp only [Option.bind_eq_bind, Option.some_bind]
        rw [← hr1] at hleft
        by_cases hcl : childKind l = 1
        · rw [if_pos hcl] at hleft
          rw [if_pos hcl, hleft]
          simp only [Option.some_bind, Option.pure_def, Option.some.injEq, Prod.mk.injEq,
            HTree.stripNum, and_true, true_and]
          exact ⟨by omega, by rw [hr2]⟩
        · rw [if_neg hcl] at hleft
          simp only [Option.some.injEq, Prod.mk.injEq] at hleft
          obtain ⟨h1, h2⟩ := hleft
          rw [if_neg hcl]
          simp only [Option.some_bind, Option.pure_def, Option.some.injEq, Prod.mk.injEq,
            HTree.stripNum, and_true, true_and]
          exact ⟨by omega, by rw [h2, hr2]⟩

theorem childKind_numbered (t : HTree) (b : Nat) :
    childKind (numberNodesRec t b).1 = childKind t := by
  cases t with
  | nil => simp [numberNodesRec]
  | node s n l r => cases s <;> simp [numberNodesRec, childKind, HTree.symbol]

theorem childVal_internal_numbered (t : HTree) (b : Nat) (hi : t.isInternalB = true) :
    childVal (numberNodesRec t b).1 = b + t.internalCount - 1 := by
  match t, hi with
  | .node none n l r, _ =>
    have hnum := numberNodesRec_internal_number (.node none n l r) b
      (by simp [HTree.isInternalB])
    simp [numberNodesRec, HTree.number] at hnum
    simp [numberNodesRec, childVal, hnum]

theorem childVal_leaf (sv : Nat) (nv : Option Nat) (b : Nat) :
    childVal (numberNodesRec (.node (some sv) nv .nil .nil) b).1 = sv := by
  simp [numberNodesRec, childVal]

theorem genTreeGeneral_correct :
    ∀ (t : HTree) (base : Nat) (N : List ReadNode) (fuel : Nat),
      HTree.strictB t = true → t.isInternalB = true →
      t.internalCount ≤ fuel →
      (∀ j, j < t.internalCount →
        N.get? (base + j) = (nodeListOf (numberNodesRec t base).1).get? j) →
      genTreeGeneral N (base + t.internalCount - 1) fuel = some (HTree.stripNum t) := by
  intro t
  induction t with
  | nil => intro base N fuel hs _ _ _; simp [HTree.strictB] at hs
  | node s n l r ihl ihr =>
    intro base N fuel hs hi hfuel hslice
    match s, hi with
    | none, _ =>
      simp only [HTree.strictB, Bool.and_eq_true] at hs
      obtain ⟨hsl, hsr⟩ := hs
      have hcnt : (HTree.node none n l r).internalCount
          = l.internalCount + r.internalCount + 1 := by
        simp [HTree.internalCount]
      rw [hcnt] at hfuel hslice ⊢
      have hl2 := (numberNodesRec_spec l base).1
      have hNt : nodeListOf (numberNodesRec (HTree.node none n l r) base).1
          = nodeListOf (numberNodesRec l base).1
            ++ nodeListOf (numberNodesRec r (numberNodesRec l base).2).1
            ++ [⟨childKind (numberNodesRec l base).1,
                 childVal (numberNodesRec l base).1,
                 childKind (numberNodesRec r (numberNodesRec l base).2).1,
                 childVal (numberNodesRec r (numberNodesRec l base).2).1⟩] := by
        simp [numberNodesRec, nodeListOf]
      have hlenl : (nodeListOf (numberNodesRec l base).1).length = l.internalCount := by
        rw [length_nodeListOf _ (by rw [strictB_numberNodesRec]; exact hsl),
          internalCount_numberNodesRec]
      have hlenr : (nodeListOf (numberNodesRec r (numberNodesRec l base).2).1).length
          = r.internalCount := by
        rw [length_nodeListOf _ (by rw [strictB_numberNodesRec]; exact hsr),
          internalCount_numberNodesRec]
      obtain ⟨fuel', rfl⟩ : ∃ fuel', fuel = fuel' + 1 := by
        refine ⟨fuel - 1, ?_⟩
        omega
      rw [hNt] at hslice
      have hroot : N.get? (base + (l.internalCount + r.internalCount + 1) - 1)
          = some ⟨childKind (numberNodesRec l base).1,
              childVal (numberNodesRec l base).1,
              childKind (numberNodesRec r (numberNodesRec l base).2).1,
              childVal (numberNodesRec r (numberNodesRec l base).2).1⟩ := by
        have h0 := hslice (l.internalCount + r.internalCount) (by omega)
        rw [List.get?_append_right (by rw [List.length_append, hlenl, hlenr])] at h0
        rw [show l.internalCount + r.internalCount
            - (nodeListOf (numberNodesRec l base).1
              ++ nodeListOf (numberNodesRec r (numberNodesRec l base).2).1).length
            = 0 from by rw [List.length_append, hlenl, hlenr]; omega] at h0
        rw [show base + (l.internalCount + r.internalCount + 1) - 1
            = base + (l.internalCount + r.internalCount) from by omega]
        exact h0
      have hstepl : (if childKind (numberNodesRec l base).1 = 1
          then genTreeGeneral N (childVal (numberNodesRec l base).1) fuel'
          else some (.node (some (childVal (numberNodesRec l base).1)) none .nil .nil))
          = some (HTree.stripNum l) := by
        rcases strict_cases l hsl with ⟨sv, nv, rfl⟩ | ⟨nv, ll, lr, rfl, h1, h2⟩
        · rw [if_neg (by rw [childKind_numbered]; simp [childKind, HTree.symbol])]
          rw [childVal_leaf]
          simp [HTree.stripNum]
        · have hint : (HTree.node none nv ll lr).isInternalB = true := by
            simp [HTree.isInternalB]
          rw [if_pos (by rw [childKind_numbered]; simp [childKind, HTree.symbol])]
          rw [childVal_internal_numbered _ _ hint]
          apply ihl base N fuel' hsl hint (by omega)
          intro j hj
          have h0 := hslice j (by omega)
          rw [List.get?_append (by rw [List.length_append, hlenl, hlenr]; omega)] at h0
          rw [List.get?_append (by rw [hlenl]; omega)] at h0
          exact h0
      have hstepr : (if childKind (numberNodesRec r (numberNodesRec l base).2).1 = 1
          then genTreeGeneral N (childVal (numberNodesRec r (numberNodesRec l base).2).1)
            fuel'
          else some (.node
            (some (childVal (numberNodesRec r (numberNodesRec l base).2).1)) none
            .nil .nil))
          = some (HTree.stripNum r) := by
        rw [hl2]
        rcases strict_cases r hsr with ⟨sv, nv, rfl⟩ | ⟨nv, rl, rr, rfl, h1, h2⟩
        · rw [if_neg (by rw [childKind_numbered]; simp [childKind, HTree.symbol])]
          rw [childVal_leaf]
          simp [HTree.stripNum]
        · have hint : (HTree.node none nv rl rr).isInternalB = true := by
            simp [HTree.isInternalB]
          rw [if_pos (by rw [childKind_numbered]; simp [childKind, HTree.symbol])]
          rw [childVal_internal_numbered _ _ hint]
          apply ihr (base + l.internalCount) N fuel' hsr hint (by omega)
          intro j hj
          have h0 := hslice (l.internalCount + j) (by omega)
          rw [List.get?_append (by rw [List.length_append, hlenl, hlenr]; omega)] at h0
          rw [List.get?_append_right (by rw [hlenl]; omega)] at h0
          rw [show l.internalCount + j - (nodeListOf (numberNodesRec l base).1).length
              = j from by rw [hlenl]; omega] at h0
          rw [show base + l.internalCount + j = base + (l.internalCount + j) from by omega]
          rw [hl2] at h0
          exact h0
      simp only [genTreeGeneral, hroot]
      by_cases hkl : childKind (numberNodesRec l base).1 = 1
      · rw [if_pos hkl] at hstepl
        rw [if_pos hkl, hstepl]
        simp only [Option.bind_eq_bind, Option.some_bind]
        by_cases hkr : childKind (numberNodesRec r (numberNodesRec l base).2).1 = 1
        · rw [if_pos hkr] at hstepr
          rw [if_pos hkr, hstepr]
          simp [HTree.stripNum]
        · rw [if_neg hkr] at hstepr
          simp only [Option.some.injEq] at hstepr
          rw [if_neg hkr]
          simp only [Option.bind_eq_bind, Option.some_bind, hstepr]
          simp [HTree.stripNum]
      · rw [if_neg hkl] at hstepl
        simp only [Option.some.injEq] at hstepl
        rw [if_neg hkl]
        simp only [Option.bind_eq_bind, Option.some_bind, hstepl]
        by_cases hkr : childKind (numberNodesRec r (numberNodesRec l base).2).1 = 1
        · rw [if_pos hkr] at hstepr
          rw [if_pos hkr, hstepr]
          simp [HTree.stripNum]
        · rw [if_neg hkr] at hstepr
          simp only [Option.some.injEq] at hstepr
          rw [if_neg hkr]
          simp only [Option.bind_eq_bind, Option.some_bind, hstepr]
          simp [HTree.stripNum]

/-- Claim C5: for every strict tree with an internal root, numbering it and
serializing with `tree_to_bytes` yields records from which **both**
reconstruction algorithms, `generate_tree_general` and
`generate_tree_postorder`, rebuild a tree structurally equal to the
original (same shape and leaf symbols; `number` attributes erased, as
`HuffmanNode.__eq__` compares), using root index `n - 1` for `n` internal
nodes.  The two algorithms therefore agree on the emitted format. -/
theorem tree_serialization_roundtrip (t : HTree)
    (hs : HTree.strictB t = true) (hi : t.isInternalB = true) :
    ∃ bs nodes,
      treeToBytes (numberNodes t) = some bs ∧
      bytesToNodes bs = some nodes ∧
      genTreeGeneral nodes (t.internalCount - 1) t.internalCount
        = some (HTree.stripNum t) ∧
      genTreePostorder nodes (t.internalCount - 1) t.internalCount
        = some (HTree.stripNum t) := by
  have hsn : HTree.strictB (numberNodes t) = true := by
    rw [numberNodes, strictB_numberNodesRec]
    exact hs
  have hin : (numberNodes t).isInternalB = true := by
    match t, hi with
    | .node none n l r, _ => simp [numberNodes, numberNodesRec, HTree.isInternalB]
  have hcn : (numberNodes t).internalCount = t.internalCount := by
    rw [numberNodes, internalCount_numberNodesRec]
  have hpos := internalCount_pos_of_internal t hi
  refine ⟨_, nodeListOf (numberNodes t), treeToBytesRec_numbered t 0 hs,
    bytesToNodes_flat _, ?_, ?_⟩
  · have hslice : ∀ j, j < t.internalCount →
        (nodeListOf (numberNodes t)).get? (0 + j)
          = (nodeListOf (numberNodesRec t 0).1).get? j := by
      intro j hj
      rw [Nat.zero_add]
      rfl
    have h := genTreeGeneral_correct t 0 (nodeListOf (numberNodes t))
      t.internalCount hs hi le_rfl hslice
    rw [Nat.zero_add] at h
    exact h
  · have hslice : ∀ j, j < (numberNodes t).internalCount →
        (nodeListOf (numberNodes t)).get?
            (t.internalCount - 1 + 1 - (numberNodes t).internalCount + j)
          = (nodeListOf (numberNodes t)).get? j := by
      intro j hj
      rw [show t.internalCount - 1 + 1 - (numberNodes t).internalCount + j = j from by
        rw [hcn]; omega]
    have h := genTreePostRec_correct (numberNodes t) (nodeListOf (numberNodes t))
      (t.internalCount - 1) t.internalCount hsn hin (by omega) (by omega) hslice
    rw [genTreePostorder, h]
    simp [numberNodes, stripNum_numberNodesRec]

theorem tree_serialization_roundtrip_witness :
    ∃ bs nodes,
      treeToBytes (numberNodes (.node none none
        (.node none none (.node (some 3) none .nil .nil) (.node (some 2) none .nil .nil))
        (.node (some 5) none .nil .nil))) = some bs ∧
      bytesToNodes bs = some nodes ∧
      genTreeGeneral nodes 1 2 = some (HTree.stripNum (.node none none
        (.node none none (.node (some 3) none .nil .nil) (.node (some 2) none .nil .nil))
        (.node (some 5) none .nil .nil))) ∧
      genTreePostorder nodes 1 2 = some (HTree.stripNum (.node none none
        (.node none none (.node (some 3) none .nil .nil) (.node (some 2) none .nil .nil))
        (.node (some 5) none .nil .nil))) :=
  tree_serialization_roundtrip _ (by decide) (by decide)

/-! ## `improve_tree` (claim C9) -/

theorem eqUTL_refl : ∀ t, eqUpToLeafSyms t t = true := by
  intro t
  induction t with
  | nil => simp [eqUpToLeafSyms]
  | node s n l r ihl ihr => simp [eqUpToLeafSyms, ihl, ihr]

theorem eqUTL_trans : ∀ t₁ t₂ t₃, eqUpToLeafSyms t₁ t₂ = true →
    eqUpToLeafSyms t₂ t₃ = true → eqUpToLeafSyms t₁ t₃ = true := by
  intro t₁
  induction t₁ with
  | nil =>
    intro t₂ t₃ h12 h23
    cases t₂ with
    | nil => exact h23
    | node s n l r => simp [eqUpToLeafSyms] at h12
  | node s n l r ihl ihr =>
    intro t₂ t₃ h12 h23
    cases t₂ with
    | nil => simp [eqUpToLeafSyms] at h12
    | node s₂ n₂ l₂ r₂ =>
      cases t₃ with
      | nil => simp [eqUpToLeafSyms] at h23
      | node s₃ n₃ l₃ r₃ =>
        simp only [eqUpToLeafSyms, Bool.and_eq_true, beq_iff_eq] at h12 h23 ⊢
        exact ⟨⟨⟨h12.1.1.1.trans h23.1.1.1, h12.1.1.2.trans h23.1.1.2⟩,
          ihl _ _ h12.1.2 h23.1.2⟩, ihr _ _ h12.2 h23.2⟩

theorem eqUTL_strictB : ∀ t t', eqUpToLeafSyms t t' = true →
    HTree.strictB t' = HTree.strictB t := by
  intro t
  induction t with
  | nil =>
    intro t' h
    cases t' with
    | nil => rfl
    | node s n l r => simp [eqUpToLeafSyms] at h
  | node s n l r ihl ihr =>
    intro t' h
    cases t' with
    | nil => simp [eqUpToLeafSyms] at h
    | node s' n' l' r' =>
      simp only [eqUpToLeafSyms, Bool.and_eq_true, beq_iff_eq] at h
      obtain ⟨⟨⟨hn, hsym⟩, hl⟩, hr⟩ := h
      cases s with
      | none =>
        have : s' = none := by
          cases s' with
          | none => rfl
          | some v => simp at hsym
        subst this
        simp [HTree.strictB, ihl _ hl, ihr _ hr]
      | some v =>
        obtain ⟨v', rfl⟩ : ∃ v', s' = some v' := by
          cases s' with
          | none => simp at hsym
          | some v' => exact ⟨v', rfl⟩
        have hlnil : (l' = HTree.nil) = (l = HTree.nil) := by
          cases l <;> cases l' <;> simp_all [eqUpToLeafSyms]
        have hrnil : (r' = HTree.nil) = (r = HTree.nil) := by
          cases r <;> cases r' <;> simp_all [eqUpToLeafSyms]
        simp [HTree.strictB, hlnil, hrnil]

theorem eqUTL_isInternalB : ∀ t t', eqUpToLeafSyms t t' = true →
    t'.isInternalB = t.isInternalB := by
  intro t t' h
  cases t with
  | nil =>
    cases t' with
    | nil => rfl
    | node s n l r => simp [eqUpToLeafSyms] at h
  | node s n l r =>
    cases t' with
    | nil => simp [eqUpToLeafSyms] at h
    | node s' n' l' r' =>
      simp only [eqUpToLeafSyms, Bool.and_eq_true, beq_iff_eq] at h
      obtain ⟨⟨⟨hn, hsym⟩, hl⟩, hr⟩ := h
      cases s <;> cases s' <;> simp_all [HTree.isInternalB]

theorem eqUTL_leafCount : ∀ t t', eqUpToLeafSyms t t' = true →
    t'.leafCount = t.leafCount := by
  intro t
  induction t with
  | nil =>
    intro t' h
    cases t' with
    | nil => rfl
    | node s n l r => simp [eqUpToLeafSyms] at h
  | node s n l r ihl ihr =>
    intro t' h
    cases t' with
    | nil => simp [eqUpToLeafSyms] at h
    | node s' n' l' r' =>
      simp only [eqUpToLeafSyms, Bool.and_eq_true, beq_iff_eq] at h
      obtain ⟨⟨⟨hn, hsym⟩, hl⟩, hr⟩ := h
      cases s <;> cases s' <;>
        simp_all [HTree.leafCount, ihl _ hl, ihr _ hr]

theorem eqUTL_internalCount : ∀ t t', eqUpToLeafSyms t t' = true →
    t'.internalCount = t.internalCount := by
  intro t
  induction t with
  | nil =>
    intro t' h
    cases t' with
    | nil => rfl
    | node s n l r => simp [eqUpToLeafSyms] at h
  | node s n l r ihl ihr =>
    intro t' h
    cases t' with
    | nil => simp [eqUpToLeafSyms] at h
    | node s' n' l' r' =>
      simp only [eqUpToLeafSyms, Bool.and_eq_true, beq_iff_eq] at h
      obtain ⟨⟨⟨hn, hsym⟩, hl⟩, hr⟩ := h
      cases s <;> cases s' <;>
        simp_all [HTree.internalCount, ihl _ hl, ihr _ hr]

theorem eqUTL_getAt : ∀ (p : List Bool) (t t' : HTree), eqUpToLeafSyms t t' = true →
    eqUpToLeafSyms (getAt t p) (getAt t' p) = true := by
  intro p
  induction p with
  | nil => intro t t' h; simpa [getAt] using h
  | cons d p ih =>
    intro t t' h
    cases t with
    | nil =>
      cases t' with
      | nil => simp [getAt, eqUpToLeafSyms]
      | node s n l r => simp [eqUpToLeafSyms] at h
    | node s n l r =>
      cases t' with
      | nil => simp [eqUpToLeafSyms] at h
      | node s' n' l' r' =>
        simp only [eqUpToLeafSyms, Bool.and_eq_true, beq_iff_eq] at h
        obtain ⟨⟨⟨hn, hsym⟩, hl⟩, hr⟩ := h
        cases d with
        | false => simpa [getAt] using ih l l' hl
        | true => simpa [getAt] using ih r r' hr

theorem getAt_append : ∀ (p p' : List Bool) (t : HTree),
    getAt t (p ++ p') = getAt (getAt t p) p' := by
  intro p
  induction p with
  | nil => intro p' t; simp [getAt]
  | cons d p ih =>
    intro p' t
    cases t with
    | nil =>
      cases p' with
      | nil => simp [getAt]
      | cons e p'' => simp [getAt]
    | node s n l r =>
      cases d with
      | false => simpa [getAt] using ih p' l
      | true => simpa [getAt] using ih p' r

theorem setSymAt_eqUTL : ∀ (cp : List Bool) (t : HTree) (v : Nat),
    (getAt t cp).symbol.isSome = true →
    eqUpToLeafSyms t (setSymAt t cp v) = true := by
  intro cp
  induction cp with
  | nil =>
    intro t v h
    cases t with
    | nil => simp [getAt, HTree.symbol] at h
    | node s n l r =>
      simp only [getAt, HTree.symbol] at h
      simp [setSymAt, eqUpToLeafSyms, eqUTL_refl, h]
  | cons d cp ih =>
    intro t v h
    cases t with
    | nil => simp [getAt, HTree.symbol] at h
    | node s n l r =>
      cases d with
      | false =>
        simp only [getAt] at h
        simp [setSymAt, eqUpToLeafSyms, eqUTL_refl, ih l v (by simpa [getAt] using h)]
      | true =>
        simp only [getAt] at h
        simp [setSymAt, eqUpToLeafSyms, eqUTL_refl, ih r v (by simpa [getAt] using h)]

theorem symbol_setSymAt_ne : ∀ (cp x : List Bool) (t : HTree) (v : Nat), x ≠ cp →
    (getAt (setSymAt t cp v) x).symbol = (getAt t x).symbol := by
  intro cp
  induction cp with
  | nil =>
    intro x t v hx
    cases t with
    | nil => simp [setSymAt]
    | node s n l r =>
      cases x with
      | nil => exact absurd rfl hx
      | cons d x' => cases d <;> simp [setSymAt, getAt]
  | cons d cp ih =>
    intro x t v hx
    cases t with
    | nil => simp [setSymAt]
    | node s n l r =>
      cases x with
      | nil => cases d <;> simp [setSymAt, getAt, HTree.symbol]
      | cons d' x' =>
        cases d with
        | false =>
          cases d' with
          | false =>
            have : x' ≠ cp := fun h => hx (by rw [h])
            simp [setSymAt, getAt, ih x' l v this]
          | true => simp [setSymAt, getAt]
        | true =>
          cases d' with
          | false => simp [setSymAt, getAt]
          | true =>
            have : x' ≠ cp := fun h => hx (by rw [h])
            simp [setSymAt, getAt, ih x' r v this]

theorem symbol_setSymAt_self : ∀ (cp : List Bool) (t : HTree) (v : Nat),
    getAt t cp ≠ HTree.nil →
    (getAt (setSymAt t cp v) cp).symbol = some v := by
  intro cp
  induction cp with
  | nil =>
    intro t v h
    cases t with
    | nil => exact absurd rfl h
    | node s n l r => simp [setSymAt, getAt, HTree.symbol]
  | cons d cp ih =>
    intro t v h
    cases t with
    | nil => simp [getAt] at h
    | node s n l r =>
      cases d with
      | false =>
        simp only [getAt] at h
        simp [setSymAt, getAt, ih l v h]
      | true =>
        simp only [getAt] at h
        simp [setSymAt, getAt, ih r v h]

theorem not_prefix_snoc_of_incomp {p' p : List Bool} {d : Bool}
    (h1 : ¬ p' <+: p) (h2 : ¬ p <+: p') : ¬ p' <+: p ++ [d] := by
  intro h
  rcases List.prefix_concat_iff.mp h with h | h
  · exact h2 (h ▸ by simp)
  · exact h1 h

theorem not_snoc_prefix_of_incomp {p' p : List Bool} {d : Bool}
    (h2 : ¬ p <+: p') : ¬ p ++ [d] <+: p' := by
  intro h
  exact h2 ((List.prefix_append p [d]).trans h)

theorem snoc_incomp_snoc (p : List Bool) {d e : Bool} (hde : d ≠ e) :
    ¬ p ++ [d] <+: p ++ [e] := by
  intro h
  rcases List.prefix_concat_iff.mp h with h | h
  · exact hde (by simpa using h)
  · have := h.length_le
    simp at this

theorem valid_transfer {t t₂ : HTree} (h : eqUpToLeafSyms t t₂ = true)
    (p : List Bool) (hv : HTree.strictB (getAt t p) = true ∧
      (getAt t p).isInternalB = true) :
    HTree.strictB (getAt t₂ p) = true ∧ (getAt t₂ p).isInternalB = true := by
  have hg := eqUTL_getAt p t t₂ h
  rw [eqUTL_strictB _ _ hg, eqUTL_isInternalB _ _ hg]
  exact hv

theorem leafCount_transfer {t t₂ : HTree} (h : eqUpToLeafSyms t t₂ = true)
    (p : List Bool) : (getAt t₂ p).leafCount = (getAt t p).leafCount :=
  eqUTL_leafCount _ _ (eqUTL_getAt p t t₂ h)

theorem internalCount_transfer {t t₂ : HTree} (h : eqUpToLeafSyms t t₂ = true)
    (p : List Bool) : (getAt t₂ p).internalCount = (getAt t p).internalCount :=
  eqUTL_internalCount _ _ (eqUTL_getAt p t t₂ h)

theorem getAt_child (t : HTree) (p : List Bool) (s n : Option Nat) (l r : HTree)
    (h : getAt t p = .node s n l r) :
    getAt t (p ++ [false]) = l ∧ getAt t (p ++ [true]) = r := by
  constructor <;> rw [getAt_append, h] <;> simp [getAt]

theorem eqUTL_node_inv (s n : Option Nat) (l r t' : HTree)
    (h : eqUpToLeafSyms (.node s n l r) t' = true) :
    ∃ s' l' r', t' = .node s' n l' r' ∧ s.isSome = s'.isSome ∧
      eqUpToLeafSyms l l' = true ∧ eqUpToLeafSyms r r' = true := by
  cases t' with
  | nil => simp [eqUpToLeafSyms] at h
  | node s' n' l' r' =>
    simp only [eqUpToLeafSyms, Bool.and_eq_true, beq_iff_eq] at h
    exact ⟨s', l', r', by rw [h.1.1.1], h.1.1.2, h.1.2, h.2⟩

theorem improveLoop_spec :
    ∀ (fuel : Nat) (t : HTree) (q : List (List Bool)) (ps : List Nat),
      (∀ p ∈ q, HTree.strictB (getAt t p) = true ∧ (getAt t p).isInternalB = true) →
      q.Pairwise (fun p₁ p₂ => ¬ p₁ <+: p₂ ∧ ¬ p₂ <+: p₁) →
      (q.map (fun p => (getAt t p).leafCount)).sum ≤ ps.length →
      (q.map (fun p => (getAt t p).internalCount)).sum + 1 ≤ fuel →
      ∃ t', improveLoop fuel t q ps = some t' ∧
        eqUpToLeafSyms t t' = true ∧
        (∀ x, (∀ p ∈ q, ¬ p <+: x) → (getAt t' x).symbol = (getAt t x).symbol) ∧
        bfsLeafSyms (q.map (getAt t'))
          = ps.take ((q.map (fun p => (getAt t p).leafCount)).sum) := by
  intro fuel
  induction fuel with
  | zero => intro t q ps _ _ _ hf; omega
  | succ fuel ih =>
    intro t q ps hval hpw hlen hf
    match q with
    | [] =>
      refine ⟨t, by simp [improveLoop], eqUTL_refl t, fun x _ => rfl, ?_⟩
      simp [bfsLeafSyms]
    | p :: q' =>
      obtain ⟨hstr, hint⟩ := hval p (by simp)
      obtain ⟨num, l, r, hp⟩ : ∃ num l r, getAt t p = .node none num l r := by
        rcases hgp : getAt t p with _ | ⟨s, num, l, r⟩
        · rw [hgp] at hint; simp [HTree.isInternalB] at hint
        · rw [hgp] at hint
          cases s with
          | none => exact ⟨num, l, r, rfl⟩
          | some v => simp [HTree.isInternalB] at hint
      rw [hp] at hstr
      simp only [HTree.strictB, Bool.and_eq_true] at hstr
      obtain ⟨hsl, hsr⟩ := hstr
      have hchild := getAt_child t p none num l r hp
      have hpw' : q'.Pairwise (fun p₁ p₂ => ¬ p₁ <+: p₂ ∧ ¬ p₂ <+: p₁) :=
        (List.pairwise_cons.mp hpw).2
      have hpq' : ∀ p' ∈ q', ¬ p <+: p' ∧ ¬ p' <+: p :=
        (List.pairwise_cons.mp hpw).1
      have hvq' : ∀ p' ∈ q', HTree.strictB (getAt t p') = true ∧
          (getAt t p').isInternalB = true :=
        fun p' h => hval p' (List.mem_cons_of_mem _ h)
      have hleafhead : (getAt t p).leafCount = l.leafCount + r.leafCount := by
        rw [hp]; simp [HTree.leafCount]
      have hinthead : (getAt t p).internalCount
          = l.internalCount + r.internalCount + 1 := by
        rw [hp]; simp [HTree.internalCount]
      simp only [List.map_cons, List.sum_cons] at hlen hf ⊢
      rw [hleafhead] at hlen ⊢
      rw [hinthead] at hf
      rcases strict_cases l hsl with ⟨sv, nv, rfl⟩ | ⟨nv, ll, lr, rfl, hsll, hslr⟩ <;>
        rcases strict_cases r hsr with ⟨sw, nw, rfl⟩ | ⟨nw, rl, rr, rfl, hsrl, hsrr⟩
      · -- both children leaves
        obtain ⟨s₀, s₁, ps₁, rfl⟩ : ∃ s₀ s₁ ps₁, ps = s₀ :: s₁ :: ps₁ := by
          match ps with
          | [] => simp [HTree.leafCount] at hlen
          | [a] => simp [HTree.leafCount] at hlen; omega
          | a :: b :: rest => exact ⟨a, b, rest, rfl⟩
        have he₁ : eqUpToLeafSyms t (setSymAt t (p ++ [false]) s₀) = true := by
          apply setSymAt_eqUTL
          rw [hchild.1]
          simp [HTree.symbol]
        have hsymr₁ : (getAt (setSymAt t (p ++ [false]) s₀) (p ++ [true])).symbol
            = some sw := by
          rw [symbol_setSymAt_ne _ _ _ _ (by
            intro h
            exact absurd (List.append_inj h rfl).2 (by decide)), hchild.2]
          simp [HTree.symbol]
        have he₂ : eqUpToLeafSyms (setSymAt t (p ++ [false]) s₀)
            (setSymAt (setSymAt t (p ++ [false]) s₀) (p ++ [true]) s₁) = true := by
          apply setSymAt_eqUTL
          rw [hsymr₁]
          rfl
        have he : eqUpToLeafSyms t
            (setSymAt (setSymAt t (p ++ [false]) s₀) (p ++ [true]) s₁) = true :=
          eqUTL_trans _ _ _ he₁ he₂
        have hsym₂l : (getAt (setSymAt (setSymAt t (p ++ [false]) s₀) (p ++ [true]) s₁)
            (p ++ [false])).symbol = some s₀ := by
          rw [symbol_setSymAt_ne _ _ _ _ (by
            intro h
            exact absurd (List.append_inj h rfl).2 (by decide))]
          apply symbol_setSymAt_self
          rw [hchild.1]
          simp
        have hsym₂r : (getAt (setSymAt (setSymAt t (p ++ [false]) s₀) (p ++ [true]) s₁)
            (p ++ [true])).symbol = some s₁ := by
          apply symbol_setSymAt_self
          intro h
          rw [h] at hsymr₁
          simp [HTree.symbol] at hsymr₁
        obtain ⟨t', hrun, he', hkeep', hbfs'⟩ := ih
          (setSymAt (setSymAt t (p ++ [false]) s₀) (p ++ [true]) s₁) q' ps₁
          (fun p' h => valid_transfer he p' (hvq' p' h))
          hpw'
          (by
            rw [List.map_congr_left (fun p' h => leafCount_transfer he p')]
            simp [HTree.leafCount] at hlen
            omega)
          (by
            rw [List.map_congr_left (fun p' h => internalCount_transfer he p')]
            simp [HTree.internalCount] at hf
            omega)
        have hkeepl : (getAt t' (p ++ [false])).symbol = some s₀ := by
          rw [hkeep' _ (fun pq hpq => not_prefix_snoc_of_incomp (hpq' pq hpq).2
            (hpq' pq hpq).1), hsym₂l]
        have hkeepr : (getAt t' (p ++ [true])).symbol = some s₁ := by
          rw [hkeep' _ (fun pq hpq => not_prefix_snoc_of_incomp (hpq' pq hpq).2
            (hpq' pq hpq).1), hsym₂r]
        have hefull : eqUpToLeafSyms t t' = true := eqUTL_trans _ _ _ he he'
        have hshape0 : eqUpToLeafSyms (.node none num (.node (some sv) nv .nil .nil)
            (.node (some sw) nw .nil .nil)) (getAt t' p) = true := by
          have h0 := eqUTL_getAt p t t' hefull
          rwa [hp] at h0
        obtain ⟨s', L', R', htp', hs', heL, heR⟩ := eqUTL_node_inv _ _ _ _ _ hshape0
        have hs'none : s' = none := by
          cases s' with
          | none => rfl
          | some v => simp at hs'
        subst hs'none
        have hL' : getAt t' (p ++ [false]) = L' := (getAt_child t' p none num L' R' htp').1
        have hR' : getAt t' (p ++ [true]) = R' := (getAt_child t' p none num L' R' htp').2
        obtain ⟨sL', LL', LR', hL'eq, hLsome, _, _⟩ := eqUTL_node_inv _ _ _ _ _ heL
        obtain ⟨sR', RL', RR', hR'eq, hRsome, _, _⟩ := eqUTL_node_inv _ _ _ _ _ heR
        obtain ⟨w₁, rfl⟩ : ∃ w, sL' = some w := by
          cases sL' with
          | none => simp at hLsome
          | some w => exact ⟨w, rfl⟩
        obtain ⟨w₂, rfl⟩ : ∃ w, sR' = some w := by
          cases sR' with
          | none => simp at hRsome
          | some w => exact ⟨w, rfl⟩
        have hw₁ : w₁ = s₀ := by
          rw [hL'eq] at hL'
          rw [hL'] at hkeepl
          simpa [HTree.symbol] using hkeepl
        have hw₂ : w₂ = s₁ := by
          rw [hR'eq] at hR'
          rw [hR'] at hkeepr
          simpa [HTree.symbol] using hkeepr
        rw [hw₁] at hL'eq
        rw [hw₂] at hR'eq
        refine ⟨t', ?_, hefull, ?_, ?_⟩
        · simp only [improveLoop, hp]
          simp [improveChild, hrun]
        · intro x hx
          have hxp : ¬ p <+: x := hx p (by simp)
          have hx1 : x ≠ p ++ [false] := by
            intro h
            exact hxp (by rw [h]; simp)
          have hx2 : x ≠ p ++ [true] := by
            intro h
            exact hxp (by rw [h]; simp)
          rw [hkeep' x (fun pq hpq => hx pq (List.mem_cons_of_mem _ hpq))]
          rw [symbol_setSymAt_ne _ _ _ _ hx2, symbol_setSymAt_ne _ _ _ _ hx1]
        · rw [htp', hL'eq, hR'eq]
          rw [show bfsLeafSyms (HTree.node none num
              (.node (some s₀) nv LL' LR') (.node (some s₁) nw RL' RR')
                :: q'.map (getAt t'))
            = leafSymOf (.node (some s₀) nv LL' LR')
              ++ leafSymOf (.node (some s₁) nw RL' RR')
              ++ bfsLeafSyms (q'.map (getAt t')
                ++ intChildOf (.node (some s₀) nv LL' LR')
                ++ intChildOf (.node (some s₁) nw RL' RR')) from by
            simp [bfsLeafSyms]]
          simp only [leafSymOf, intChildOf, List.append_nil]
          rw [hbfs']
          rw [List.map_congr_left (fun p' h => leafCount_transfer he p')]
          rw [show (HTree.node (some sv) nv .nil .nil).leafCount = 1 from by
            simp [HTree.leafCount]]
          rw [show (HTree.node (some sw) nw .nil .nil).leafCount = 1 from by
            simp [HTree.leafCount]]
          rw [show (1 + 1 : Nat)
              + (q'.map (fun p' => (getAt t p').leafCount)).sum
              = ((q'.map (fun p' => (getAt t p').leafCount)).sum + 1) + 1 from by omega]
          simp [List.take_succ_cons]
      · -- left child leaf, right child internal
        obtain ⟨s₀, ps₀, rfl⟩ : ∃ s₀ ps₀, ps = s₀ :: ps₀ := by
          match ps with
          | [] => simp [HTree.leafCount] at hlen
          | a :: rest => exact ⟨a, rest, rfl⟩
        have he₁ : eqUpToLeafSyms t (setSymAt t (p ++ [false]) s₀) = true := by
          apply setSymAt_eqUTL
          rw [hchild.1]
          simp [HTree.symbol]
        have hsym₁l : (getAt (setSymAt t (p ++ [false]) s₀) (p ++ [false])).symbol
            = some s₀ := by
          apply symbol_setSymAt_self
          rw [hchild.1]
          simp
        have hrint : HTree.strictB (HTree.node none nw rl rr) = true ∧
            (HTree.node none nw rl rr).isInternalB = true := by
          simp [HTree.strictB, HTree.isInternalB, hsrl, hsrr]
        have hq₂v : ∀ pq ∈ q' ++ [p ++ [true]],
            HTree.strictB (getAt (setSymAt t (p ++ [false]) s₀) pq) = true ∧
            (getAt (setSymAt t (p ++ [false]) s₀) pq).isInternalB = true := by
          intro pq hpq
          rcases List.mem_append.mp hpq with h | h
          · exact valid_transfer he₁ pq (hvq' pq h)
          · simp at h
            subst h
            refine valid_transfer he₁ _ ?_
            rw [hchild.2]
            exact hrint
        have hq₂pw : (q' ++ [p ++ [true]]).Pairwise
            (fun p₁ p₂ => ¬ p₁ <+: p₂ ∧ ¬ p₂ <+: p₁) := by
          rw [List.pairwise_append]
          refine ⟨hpw', by simp, ?_⟩
          intro a ha b hb
          simp at hb
          subst hb
          exact ⟨not_prefix_snoc_of_incomp (hpq' a ha).2 (hpq' a ha).1,
            not_snoc_prefix_of_incomp (hpq' a ha).1⟩
        have hsum2 : ((q' ++ [p ++ [true]]).map
              (fun pq => (getAt (setSymAt t (p ++ [false]) s₀) pq).leafCount)).sum
            = (q'.map (fun pq => (getAt t pq).leafCount)).sum
              + (HTree.node none nw rl rr).leafCount := by
          rw [List.map_append, List.sum_append,
            List.map_congr_left (fun pq h => leafCount_transfer he₁ pq)]
          simp [leafCount_transfer he₁, hchild.2]
        have hsumint2 : ((q' ++ [p ++ [true]]).map
              (fun pq => (getAt (setSymAt t (p ++ [false]) s₀) pq).internalCount)).sum
            = (q'.map (fun pq => (getAt t pq).internalCount)).sum
              + (HTree.node none nw rl rr).internalCount := by
          rw [List.map_append, List.sum_append,
            List.map_congr_left (fun pq h => internalCount_transfer he₁ pq)]
          simp [internalCount_transfer he₁, hchild.2]
        obtain ⟨t', hrun, he', hkeep', hbfs'⟩ := ih
          (setSymAt t (p ++ [false]) s₀) (q' ++ [p ++ [true]]) ps₀
          hq₂v hq₂pw
          (by
            rw [hsum2]
            rw [show (HTree.node (some sv) nv .nil .nil).leafCount = 1 from by
              simp [HTree.leafCount]] at hlen
            simp at hlen
            omega)
          (by
            rw [hsumint2]
            rw [show (HTree.node (some sv) nv .nil .nil).internalCount = 0 from by
              simp [HTree.internalCount]] at hf
            omega)
        have hkeepl : (getAt t' (p ++ [false])).symbol = some s₀ := by
          rw [hkeep' _ ?_, hsym₁l]
          intro pq hpq
          rcases List.mem_append.mp hpq with h | h
          · exact not_prefix_snoc_of_incomp (hpq' pq h).2 (hpq' pq h).1
          · simp at h
            subst h
            exact snoc_incomp_snoc p (by decide)
        have hefull : eqUpToLeafSyms t t' = true := eqUTL_trans _ _ _ he₁ he'
        have hshape0 : eqUpToLeafSyms (.node none num (.node (some sv) nv .nil .nil)
            (.node none nw rl rr)) (getAt t' p) = true := by
          have h0 := eqUTL_getAt p t t' hefull
          rwa [hp] at h0
        obtain ⟨s', L', R', htp', hs', heL, heR⟩ := eqUTL_node_inv _ _ _ _ _ hshape0
        have hs'none : s' = none := by
          cases s' with
          | none => rfl
          | some v => simp at hs'
        subst hs'none
        have hL' : getAt t' (p ++ [false]) = L' := (getAt_child t' p none num L' R' htp').1
        have hR' : getAt t' (p ++ [true]) = R' := (getAt_child t' p none num L' R' htp').2
        obtain ⟨sL', LL', LR', hL'eq, hLsome, _, _⟩ := eqUTL_node_inv _ _ _ _ _ heL
        obtain ⟨w₁, rfl⟩ : ∃ w, sL' = some w := by
          cases sL' with
          | none => simp at hLsome
          | some w => exact ⟨w, rfl⟩
        obtain ⟨sR', RL', RR', hR'eq, hRsome, _, _⟩ := eqUTL_node_inv _ _ _ _ _ heR
        have hsR'none : sR' = none := by
          cases sR' with
          | none => rfl
          | some v => simp at hRsome
        subst hsR'none
        have hw₁ : w₁ = s₀ := by
          rw [hL'eq] at hL'
          rw [hL'] at hkeepl
          simpa [HTree.symbol] using hkeepl
        rw [hw₁] at hL'eq
        refine ⟨t', ?_, hefull, ?_, ?_⟩
        · simp only [improveLoop, hp]
          simp [improveChild, hrun]
        · intro x hx
          have hxp : ¬ p <+: x := hx p (by simp)
          have hx1 : x ≠ p ++ [false] := by
            intro h
            exact hxp (by rw [h]; simp)
          rw [hkeep' x ?_]
          · rw [symbol_setSymAt_ne _ _ _ _ hx1]
          · intro pq hpq
            rcases List.mem_append.mp hpq with h | h
            · exact hx pq (List.mem_cons_of_mem _ h)
            · simp at h
              subst h
              intro hpre
              exact hxp ((List.prefix_append p [true]).trans hpre)
        · rw [htp', hL'eq, hR'eq]
          rw [show bfsLeafSyms (HTree.node none num
              (.node (some s₀) nv LL' LR') (.node none nw RL' RR')
                :: q'.map (getAt t'))
            = leafSymOf (.node (some s₀) nv LL' LR')
              ++ leafSymOf (.node none nw RL' RR')
              ++ bfsLeafSyms (q'.map (getAt t')
                ++ intChildOf (.node (some s₀) nv LL' LR')
                ++ intChildOf (.node none nw RL' RR')) from by
            simp [bfsLeafSyms]]
          simp only [leafSymOf, intChildOf, List.append_nil, List.nil_append]
          rw [show q'.map (getAt t') ++ [HTree.node none nw RL' RR']
              = (q' ++ [p ++ [true]]).map (getAt t') from by
            simp [hR', hR'eq]]
          rw [hbfs', hsum2]
          rw [show (HTree.node (some sv) nv .nil .nil).leafCount = 1 from by
            simp [HTree.leafCount]]
          rw [show (1 + (HTree.node none nw rl rr).leafCount : Nat)
              + (q'.map (fun p' => (getAt t p').leafCount)).sum
              = ((q'.map (fun p' => (getAt t p').leafCount)).sum
                + (HTree.node none nw rl rr).leafCount) + 1 from by omega]
          simp [List.take_succ_cons]
      · -- left child internal, right child leaf
        obtain ⟨s₀, ps₀, rfl⟩ : ∃ s₀ ps₀, ps = s₀ :: ps₀ := by
          match ps with
          | [] => simp [HTree.leafCount] at hlen
          | a :: rest => exact ⟨a, rest, rfl⟩
        have he : eqUpToLeafSyms t (setSymAt t (p ++ [true]) s₀) = true := by
          apply setSymAt_eqUTL
          rw [hchild.2]
          simp [HTree.symbol]
        have hsym₂r : (getAt (setSymAt t (p ++ [true]) s₀) (p ++ [true])).symbol
            = some s₀ := by
          apply symbol_setSymAt_self
          rw [hchild.2]
          simp
        have hlint : HTree.strictB (HTree.node none nv ll lr) = true ∧
            (HTree.node none nv ll lr).isInternalB = true := by
          simp [HTree.strictB, HTree.isInternalB, hsll, hslr]
        have hq₂v : ∀ pq ∈ q' ++ [p ++ [false]],
            HTree.strictB (getAt (setSymAt t (p ++ [true]) s₀) pq) = true ∧
            (getAt (setSymAt t (p ++ [true]) s₀) pq).isInternalB = true := by
          intro pq hpq
          rcases List.mem_append.mp hpq with h | h
          · exact valid_transfer he pq (hvq' pq h)
          · simp at h
            subst h
            refine valid_transfer he _ ?_
            rw [hchild.1]
            exact hlint
        have hq₂pw : (q' ++ [p ++ [false]]).Pairwise
            (fun p₁ p₂ => ¬ p₁ <+: p₂ ∧ ¬ p₂ <+: p₁) := by
          rw [List.pairwise_append]
          refine ⟨hpw', by simp, ?_⟩
          intro a ha b hb
          simp at hb
          subst hb
          exact ⟨not_prefix_snoc_of_incomp (hpq' a ha).2 (hpq' a ha).1,
            not_snoc_prefix_of_incomp (hpq' a ha).1⟩
        have hsum2 : ((q' ++ [p ++ [false]]).map
              (fun pq => (getAt (setSymAt t (p ++ [true]) s₀) pq).leafCount)).sum
            = (q'.map (fun pq => (getAt t pq).leafCount)).sum
              + (HTree.node none nv ll lr).leafCount := by
          rw [List.map_append, List.sum_append,
            List.map_congr_left (fun pq h => leafCount_transfer he pq)]
          simp [leafCount_transfer he, hchild.1]
        have hsumint2 : ((q' ++ [p ++ [false]]).map
              (fun pq => (getAt (setSymAt t (p ++ [true]) s₀) pq).internalCount)).sum
            = (q'.map (fun pq => (getAt t pq).internalCount)).sum
              + (HTree.node none nv ll lr).internalCount := by
          rw [List.map_append, List.sum_append,
            List.map_congr_left (fun pq h => internalCount_transfer he pq)]
          simp [internalCount_transfer he, hchild.1]
        obtain ⟨t', hrun, he', hkeep', hbfs'⟩ := ih
          (setSymAt t (p ++ [true]) s₀) (q' ++ [p ++ [false]]) ps₀
          hq₂v hq₂pw
          (by
            rw [hsum2]
            rw [show (HTree.node (some sw) nw .nil .nil).leafCount = 1 from by
              simp [HTree.leafCount]] at hlen
            simp at hlen
            omega)
          (by
            rw [hsumint2]
            rw [show (HTree.node (some sw) nw .nil .nil).internalCount = 0 from by
              simp [HTree.internalCount]] at hf
            omega)
        have hkeepr : (getAt t' (p ++ [true])).symbol = some s₀ := by
          rw [hkeep' _ ?_, hsym₂r]
          intro pq hpq
          rcases List.mem_append.mp hpq with h | h
          · exact not_prefix_snoc_of_incomp (hpq' pq h).2 (hpq' pq h).1
          · simp at h
            subst h
            exact snoc_incomp_snoc p (by decide)
        have hefull : eqUpToLeafSyms t t' = true := eqUTL_trans _ _ _ he he'
        have hshape0 : eqUpToLeafSyms (.node none num (.node none nv ll lr)
            (.node (some sw) nw .nil .nil)) (getAt t' p) = true := by
          have h0 := eqUTL_getAt p t t' hefull
          rwa [hp] at h0
        obtain ⟨s', L', R', htp', hs', heL, heR⟩ := eqUTL_node_inv _ _ _ _ _ hshape0
        have hs'none : s' = none := by
          cases s' with
          | none => rfl
          | some v => simp at hs'
        subst hs'none
        have hL' : getAt t' (p ++ [false]) = L' := (getAt_child t' p none num L' R' htp').1
        have hR' : getAt t' (p ++ [true]) = R' := (getAt_child t' p none num L' R' htp').2
        obtain ⟨sL', LL', LR', hL'eq, hLsome, _, _⟩ := eqUTL_node_inv _ _ _ _ _ heL
        have hsL'none : sL' = none := by
          cases sL' with
          | none => rfl
          | some v => simp at hLsome
        subst hsL'none
        obtain ⟨sR', RL', RR', hR'eq, hRsome, _, _⟩ := eqUTL_node_inv _ _ _ _ _ heR
        obtain ⟨w₂, rfl⟩ : ∃ w, sR' = some w := by
          cases sR' with
          | none => simp at hRsome
          | some w => exact ⟨w, rfl⟩
        have hw₂ : w₂ = s₀ := by
          rw [hR'eq] at hR'
          rw [hR'] at hkeepr
          simpa [HTree.symbol] using hkeepr
        rw [hw₂] at hR'eq
        refine ⟨t', ?_, hefull, ?_, ?_⟩
        · simp only [improveLoop, hp]
          simp [improveChild, hrun]
        · intro x hx
          have hxp : ¬ p <+: x := hx p (by simp)
          have hx2 : x ≠ p ++ [true] := by
            intro h
            exact hxp (by rw [h]; simp)
          rw [hkeep' x ?_]
          · rw [symbol_setSymAt_ne _ _ _ _ hx2]
          · intro pq hpq
            rcases List.mem_append.mp hpq with h | h
            · exact hx pq (List.mem_cons_of_mem _ h)
            · simp at h
              subst h
              intro hpre
              exact hxp ((List.prefix_append p [false]).trans hpre)
        · rw [htp', hL'eq, hR'eq]
          rw [show bfsLeafSyms (HTree.node none num
              (.node none nv LL' LR') (.node (some s₀) nw RL' RR')
                :: q'.map (getAt t'))
            = leafSymOf (.node none nv LL' LR')
              ++ leafSymOf (.node (some s₀) nw RL' RR')
              ++ bfsLeafSyms (q'.map (getAt t')
                ++ intChildOf (.node none nv LL' LR')
                ++ intChildOf (.node (some s₀) nw RL' RR')) from by
            simp [bfsLeafSyms]]
          simp only [leafSymOf, intChildOf, List.append_nil, List.nil_append]
          rw [show q'.map (getAt t') ++ [HTree.node none nv LL' LR']
              = (q' ++ [p ++ [false]]).map (getAt t') from by
            simp [hL', hL'eq]]
          rw [hbfs', hsum2]
          rw [show (HTree.node (some sw) nw .nil .nil).leafCount = 1 from by
            simp [HTree.leafCount]]
          rw [show ((HTree.node none nv ll lr).leafCount + 1 : Nat)
              + (q'.map (fun p' => (getAt t p').leafCount)).sum
              = ((q'.map (fun p' => (getAt t p').leafCount)).sum
                + (HTree.node none nv ll lr).leafCount) + 1 from by omega]
          simp [List.take_succ_cons]
      · -- both children internal
        have hlint : HTree.strictB (HTree.node none nv ll lr) = true ∧
            (HTree.node none nv ll lr).isInternalB = true := by
          simp [HTree.strictB, HTree.isInternalB, hsll, hslr]
        have hrint : HTree.strictB (HTree.node none nw rl rr) = true ∧
            (HTree.node none nw rl rr).isInternalB = true := by
          simp [HTree.strictB, HTree.isInternalB, hsrl, hsrr]
        have hq₂v : ∀ pq ∈ q' ++ [p ++ [false]] ++ [p ++ [true]],
            HTree.strictB (getAt t pq) = true ∧ (getAt t pq).isInternalB = true := by
          intro pq hpq
          rcases List.mem_append.mp hpq with h | h
          · rcases List.mem_append.mp h with h' | h'
            · exact hvq' pq h'
            · simp at h'
              subst h'
              rw [hchild.1]
              exact hlint
          · simp at h
            subst h
            rw [hchild.2]
            exact hrint
        have hq₂pw : (q' ++ [p ++ [false]] ++ [p ++ [true]]).Pairwise
            (fun p₁ p₂ => ¬ p₁ <+: p₂ ∧ ¬ p₂ <+: p₁) := by
          rw [List.pairwise_append]
          refine ⟨?_, by simp, ?_⟩
          · rw [List.pairwise_append]
            refine ⟨hpw', by simp, ?_⟩
            intro a ha b hb
            simp at hb
            subst hb
            exact ⟨not_prefix_snoc_of_incomp (hpq' a ha).2 (hpq' a ha).1,
              not_snoc_prefix_of_incomp (hpq' a ha).1⟩
          · intro a ha b hb
            simp at hb
            subst hb
            rcases List.mem_append.mp ha with h | h
            · exact ⟨not_prefix_snoc_of_incomp (hpq' a h).2 (hpq' a h).1,
                not_snoc_prefix_of_incomp (hpq' a h).1⟩
            · simp at h
              subst h
              exact ⟨snoc_incomp_snoc p (by decide), snoc_incomp_snoc p (by decide)⟩
        have hsum2 : ((q' ++ [p ++ [false]] ++ [p ++ [true]]).map
              (fun pq => (getAt t pq).leafCount)).sum
            = (q'.map (fun pq => (getAt t pq).leafCount)).sum
              + (HTree.node none nv ll lr).leafCount
              + (HTree.node none nw rl rr).leafCount := by
          simp [List.map_append, List.sum_append, hchild.1, hchild.2]
          omega
        have hsumint2 : ((q' ++ [p ++ [false]] ++ [p ++ [true]]).map
              (fun pq => (getAt t pq).internalCount)).sum
            = (q'.map (fun pq => (getAt t pq).internalCount)).sum
              + (HTree.node none nv ll lr).internalCount
              + (HTree.node none nw rl rr).internalCount := by
          simp [List.map_append, List.sum_append, hchild.1, hchild.2]
          omega
        obtain ⟨t', hrun, he', hkeep', hbfs'⟩ := ih
          t (q' ++ [p ++ [false]] ++ [p ++ [true]]) ps
          hq₂v hq₂pw
          (by rw [hsum2]; omega)
          (by rw [hsumint2]; omega)
        refine ⟨t', ?_, he', ?_, ?_⟩
        · simp only [improveLoop, hp]
          simp [improveChild]
          simpa using hrun
        · intro x hx
          have hxp : ¬ p <+: x := hx p (by simp)
          rw [hkeep' x ?_]
          intro pq hpq
          rcases List.mem_append.mp hpq with h | h
          · rcases List.mem_append.mp h with h' | h'
            · exact hx pq (List.mem_cons_of_mem _ h')
            · simp at h'
              subst h'
              intro hpre
              exact hxp ((List.prefix_append p [false]).trans hpre)
          · simp at h
            subst h
            intro hpre
            exact hxp ((List.prefix_append p [true]).trans hpre)
        · have hshape0 : eqUpToLeafSyms (.node none num (.node none nv ll lr)
              (.node none nw rl rr)) (getAt t' p) = true := by
            have h0 := eqUTL_getAt p t t' he'
            rwa [hp] at h0
          obtain ⟨s', L', R', htp', hs', heL, heR⟩ := eqUTL_node_inv _ _ _ _ _ hshape0
          have hs'none : s' = none := by
            cases s' with
            | none => rfl
            | some v => simp at hs'
          subst hs'none
          have hL' : getAt t' (p ++ [false]) = L' :=
            (getAt_child t' p none num L' R' htp').1
          have hR' : getAt t' (p ++ [true]) = R' :=
            (getAt_child t' p none num L' R' htp').2
          obtain ⟨sL', LL', LR', hL'eq, hLsome, _, _⟩ := eqUTL_node_inv _ _ _ _ _ heL
          have hsL'none : sL' = none := by
            cases sL' with
            | none => rfl
            | some v => simp at hLsome
          subst hsL'none
          obtain ⟨sR', RL', RR', hR'eq, hRsome, _, _⟩ := eqUTL_node_inv _ _ _ _ _ heR
          have hsR'none : sR' = none := by
            cases sR' with
            | none => rfl
            | some v => simp at hRsome
          subst hsR'none
          rw [htp', hL'eq, hR'eq]
          rw [show bfsLeafSyms (HTree.node none num
              (.node none nv LL' LR') (.node none nw RL' RR')
                :: q'.map (getAt t'))
            = leafSymOf (.node none nv LL' LR')
              ++ leafSymOf (.node none nw RL' RR')
              ++ bfsLeafSyms (q'.map (getAt t')
                ++ intChildOf (.node none nv LL' LR')
                ++ intChildOf (.node none nw RL' RR')) from by
            simp [bfsLeafSyms]]
          simp only [leafSymOf, intChildOf, List.nil_append]
          rw [show q'.map (getAt t') ++ [HTree.node none nv LL' LR']
              ++ [HTree.node none nw RL' RR']
              = (q' ++ [p ++ [false]] ++ [p ++ [true]]).map (getAt t') from by
            simp [hL', hR', hL'eq, hR'eq]]
          rw [hbfs', hsum2]
          congr 1
          omega


/-- Claim C9, counterexample: on a strict single-leaf tree whose leaf count
matches the one-entry table `{7: 1}`, `improve_tree` changes nothing — the
loop only ever relabels *children* of dequeued nodes, so a root that is
itself a leaf keeps its symbol `5` and never receives the highest-frequency
symbol `7`. -/
theorem improve_tree_leaf_root_unchanged :
    improveTree (.node (some 5) none .nil .nil) [(7, 1)]
      = some (.node (some 5) none .nil .nil) ∧
    HTree.strictB (.node (some 5) none .nil .nil) = true ∧
    (HTree.node (some 5) none .nil .nil).leafCount = [(7, 1)].length ∧
    (sortDescByFreq [(7, 1)]).map Prod.fst = [7] := by
  decide

/-- Claim C9 as amended: for every strict binary tree with an **internal
root** whose leaf count equals the number of entries of `freq_dict`,
`improve_tree` terminates successfully, leaves the left/right structure,
the leaf/internal status of every node and all `number` attributes
unchanged (only leaf symbols are reassigned), and afterwards the leaf
symbols read in breadth-first encounter order are exactly the `freq_dict`
symbols sorted by descending frequency (stable).  A root that is itself a
leaf is never relabeled (see the counterexample). -/
theorem improve_tree_relabels_bfs (t : HTree) (freq : List (Nat × Nat))
    (hs : HTree.strictB t = true) (hi : t.isInternalB = true)
    (hcount : t.leafCount = freq.length) :
    ∃ t', improveTree t freq = some t' ∧
      eqUpToLeafSyms t t' = true ∧
      bfsLeafSyms [t'] = (sortDescByFreq freq).map Prod.fst := by
  have hps : ((sortDescByFreq freq).map Prod.fst).length = freq.length := by
    simp [sortDescByFreq, List.length_insertionSort]
  obtain ⟨t', hrun, he, _, hbfs⟩ := improveLoop_spec (t.size + 1) t [[]]
    ((sortDescByFreq freq).map Prod.fst)
    (by
      intro p hp
      simp at hp
      subst hp
      exact ⟨by simpa [getAt] using hs, by simpa [getAt] using hi⟩)
    (by simp)
    (by
      simp only [List.map_cons, List.map_nil, List.sum_cons, List.sum_nil]
      simp [getAt, hps, hcount])
    (by
      simp only [List.map_cons, List.map_nil, List.sum_cons, List.sum_nil]
      have hle : t.internalCount ≤ t.size := by
        clear hi hcount hs
        induction t with
        | nil => simp [HTree.internalCount, HTree.size]
        | node s n l r ihl ihr =>
          cases s <;> simp [HTree.internalCount, HTree.size] <;> omega
      simp [getAt]
      omega)
  refine ⟨t', hrun, he, ?_⟩
  have h0 : [t'] = [[]].map (getAt t') := by simp [getAt]
  rw [h0, hbfs]
  have h1 : (([[]] : List (List Bool)).map
      (fun p => (getAt t p).leafCount)).sum = freq.length := by
    simp [getAt, hcount]
  rw [h1, ← hps, List.take_length]

theorem improve_tree_relabels_bfs_witness :
    ∃ t', improveTree
        (.node none none
          (.node none none (.node (some 99) none .nil .nil) (.node (some 100) none .nil .nil))
          (.node none none (.node (some 101) none .nil .nil)
            (.node none none (.node (some 97) none .nil .nil) (.node (some 98) none .nil .nil))))
        [(97, 26), (98, 23), (99, 20), (100, 16), (101, 15)] = some t' ∧
      eqUpToLeafSyms
        (.node none none
          (.node none none (.node (some 99) none .nil .nil) (.node (some 100) none .nil .nil))
          (.node none none (.node (some 101) none .nil .nil)
            (.node none none (.node (some 97) none .nil .nil) (.node (some 98) none .nil .nil))))
        t' = true ∧
      bfsLeafSyms [t'] = (sortDescByFreq
        [(97, 26), (98, 23), (99, 20), (100, 16), (101, 15)]).map Prod.fst :=
  improve_tree_relabels_bfs _ _ (by decide) (by decide) (by decide)
